import Mathlib

/-!
Shallow embedding of the KZG polynomial commitment engine
(src/ecc/bls12-377/fr/kzg/kzg.go) and of the accumulating-ratio polynomial
builder (src/ecc/bw6-756/fr/iop/ratios.go) of mimoo/gnark-crypto.

The scalar field, the two curve groups, the pairing, the FFT machinery and
the Fiat-Shamir transcript are external collaborators of the verified core
(spec, section 1).  They are modelled algebraically: the scalar field is an
arbitrary `Field F`; a group element is represented by its discrete
logarithm (an element of `F`), so group addition is field addition, scalar
multiplication is field multiplication, a multi-scalar multiplication is a
sum of products, and a two-pair pairing product equals one exactly when the
corresponding sum of exponent products is zero.  Fallible Go code is
embedded in an `Outcome` type with an explicit constructor for runtime
aborts (out-of-range slice indexing), so that panics of the source are
visible in the embedding.
-/

set_option maxRecDepth 4000
set_option linter.unusedSectionVars false

/-- Concrete witnesses are evaluated in the five-element prime field,
realized as `Fin 5` with the inverse given by `x ^ 3` (Fermat), so that
every field operation reduces structurally inside the kernel. -/
instance : Field (Fin 5) :=
  { inferInstanceAs (CommRing (Fin 5)) with
    inv := fun x => x ^ 3
    div := fun a b => a * b ^ 3
    div_eq_mul_inv := fun _ _ => rfl
    exists_pair_ne := ⟨0, 1, by decide⟩
    mul_inv_cancel := by decide
    inv_zero := by decide
    nnqsmul := _
    qsmul := _ }

/-- Result of running a piece of embedded Go code: a normal value, an error
value returned to the caller, or a runtime panic (abort). -/
inductive Outcome (ε α : Type) where
  | ok (a : α)
  | err (e : ε)
  | panic
  deriving DecidableEq, Repr

namespace Outcome

def bind {ε α β : Type} : Outcome ε α → (α → Outcome ε β) → Outcome ε β
  | .ok a, f => f a
  | .err e, _ => .err e
  | .panic, _ => .panic

instance {ε : Type} : Monad (Outcome ε) where
  pure := Outcome.ok
  bind := Outcome.bind

/-- `true` exactly when the computation returned a value. -/
def isOk {ε α : Type} : Outcome ε α → Bool
  | .ok _ => true
  | _ => false

/-- Monadic map over a list, stopping at the first error or panic. -/
def mapListM {ε α β : Type} (f : α → Outcome ε β) : List α → Outcome ε (List β)
  | [] => .ok []
  | x :: xs => Outcome.bind (f x) fun y =>
      Outcome.bind (mapListM f xs) fun ys => .ok (y :: ys)

/-- Monadic left fold over a list, stopping at the first error or panic. -/
def foldListM {ε α β : Type} (f : β → α → Outcome ε β) : β → List α → Outcome ε β
  | b, [] => .ok b
  | b, x :: xs => Outcome.bind (f b x) fun b2 => foldListM f b2 xs

/-- Run an action for each list element in order, stopping at the first
error or panic (the Go `for` loop over index ranges). -/
def forListM {ε α : Type} (f : α → Outcome ε Unit) : List α → Outcome ε Unit
  | [] => .ok ()
  | x :: xs => Outcome.bind (f x) fun _ => forListM f xs

end Outcome

/-- A Go slice read `l[i]`: panics when the index is out of range. -/
def readAt {ε α : Type} (l : List α) (i : Nat) : Outcome ε α :=
  match l.get? i with
  | some x => .ok x
  | none => .panic

namespace Kzg

variable {F : Type} [Field F] [DecidableEq F] {E : Type}

/-- The error values of the kzg package (`errors.New` block of kzg.go);
`external e` is an error produced by an external primitive and propagated. -/
inductive KzgErr (E : Type) where
  | ErrInvalidNbDigests
  | ErrInvalidPolynomialSize
  | ErrVerifyOpeningProof
  | ErrVerifyBatchOpeningSinglePoint
  | ErrInvalidDomain
  | ErrMinSRSSize
  | external (e : E)
  deriving DecidableEq, Repr

/-- SRS of kzg.go in the discrete-log model: `G1` holds the exponents of the
G1 powers (mathematically `[1, α, α², …]`), `G2` the exponents of the two
G2 elements `(generator, α·generator)`. -/
structure SRS (F : Type) where
  G1 : List F
  G2 : F × F
  deriving DecidableEq, Repr

/-- OpeningProof of kzg.go: quotient commitment `H` (exponent model),
evaluation point and claimed value. -/
structure OpeningProof (F : Type) where
  H : F
  Point : F
  ClaimedValue : F
  deriving DecidableEq, Repr

/-- BatchOpeningProof of kzg.go: folded quotient commitment, point, and the
individual (unfolded) claimed values. -/
structure BatchOpeningProof (F : Type) where
  H : F
  Point : F
  ClaimedValues : List F
  deriving DecidableEq, Repr

/-- Modelled from the spec: `polynomial.Eval` (external polynomial package)
evaluates the coefficient list at a point by Horner's rule from the
highest-degree coefficient down. -/
def evalPoly (p : List F) (z : F) : F :=
  p.foldr (fun c acc => c + z * acc) 0

/-- Modelled from the spec: `MultiScalarMul(bases, scalars)` of the external
group interface, in the discrete-log model: the sum of the pairwise
products of scalars and base exponents. -/
def msm (bases scalars : List F) : F :=
  (List.zipWith (fun s b => s * b) scalars bases).sum

/-- Modelled from the spec: `PairingCheck(G1 list, G2 list)` of the external
pairing interface decides whether the product of the pairings equals one;
in the discrete-log model the product of pairings has exponent equal to the
sum of the products of the paired exponents. -/
def pairingCheck (pairs : List (F × F)) : Bool :=
  decide ((pairs.map (fun q => q.1 * q.2)).sum = 0)

/-- `NewSRS` of kzg.go: rejects sizes below 2, otherwise produces the G1
powers of alpha and the two G2 elements (discrete-log model). -/
def NewSRS (size : Nat) (alpha : F) : Outcome (KzgErr E) (SRS F) :=
  if size < 2 then .err .ErrMinSRSSize
  else .ok ⟨(List.range size).map (fun i => alpha ^ i), (1, alpha)⟩

/-- `Commit` of kzg.go.  `useLimiter` is true when the caller supplies a
`ecc.CPUSemaphore`; `numCpus` is `runtime.NumCPU()`.  Without a limiter and
with more than 16 CPUs the multi-exponentiation is split in two halves that
are combined by group addition; otherwise a single multi-exponentiation
over `srs.G1[:len(p)]` is used. -/
def Commit (useLimiter : Bool) (numCpus : Nat) (p : List F) (srs : SRS F) :
    Outcome (KzgErr E) F :=
  if p.length = 0 ∨ srs.G1.length < p.length then .err .ErrInvalidPolynomialSize
  else if useLimiter then .ok (msm (srs.G1.take p.length) p)
  else if 16 < numCpus then
    let m := p.length / 2
    let p1 := msm (srs.G1.take m) (p.take m)
    let p2 := msm ((srs.G1.take p.length).drop m) (p.drop m)
    .ok (p1 + p2)
  else .ok (msm (srs.G1.take p.length) p)

/-- The unsplit commitment, stated from the spec's words (section 4.2): the
multi-scalar product of `SRS.G1[:len(poly)]` by the polynomial's
coefficients, as a single multi-scalar multiplication, after the same size
check. -/
def CommitUnsplitSpec (p : List F) (srs : SRS F) : Outcome (KzgErr E) F :=
  if p.length = 0 ∨ srs.G1.length < p.length then .err .ErrInvalidPolynomialSize
  else .ok (msm (srs.G1.take p.length) p)

/-- One pass of the synthetic-division loop of `dividePolyByXminusA`, written
as structural recursion from the highest index down: the carry coming back
from the higher indices is the new value of the current slot, and the new
carry is the old slot value plus `a` times the incoming carry. -/
def synthDivAux (a : F) : List F → F × List F
  | [] => (0, [])
  | x :: xs =>
    let r := synthDivAux a xs
    (x + r.1 * a, r.1 :: r.2)

/-- The step `f[0].Sub(&f[0], &fa)` of `dividePolyByXminusA`: subtract `fa`
from the constant term. -/
def subConst (fa : F) : List F → List F
  | [] => []
  | y :: ys => (y - fa) :: ys

/-- `dividePolyByXminusA` of kzg.go: computes `(f - f(a))/(x - a)` in place.
The buffer is first extended to the domain cardinality (the backing storage
beyond `len(f)` is zero), `f(a)` is subtracted from the constant term, the
synthetic division runs from the highest index down, and the result is the
first `len(f) - 1` slots of the buffer. -/
def dividePolyByXminusA (card : Nat) (f : List F) (fa a : F) : List F :=
  let degree := f.length - 1
  let g := (f ++ List.replicate (card - f.length) 0).take card
  ((synthDivAux a (subConst fa g)).2).take degree

/-- `Open` of kzg.go: size and domain checks, evaluation of the claimed
value, synthetic division on a fresh copy of the polynomial, and a
commitment to the quotient (no concurrency limiter is passed to `Commit`).
`card` is `domain.Cardinality`. -/
def Open (numCpus card : Nat) (p : List F) (point : F) (srs : SRS F) :
    Outcome (KzgErr E) (OpeningProof F) :=
  if p.length = 0 ∨ srs.G1.length < p.length then .err .ErrInvalidPolynomialSize
  else if card < p.length then .err .ErrInvalidDomain
  else
    let claimedValue := evalPoly p point
    let h := dividePolyByXminusA card p claimedValue point
    Outcome.bind (Commit (E := E) false numCpus h srs) fun hCommit =>
      .ok ⟨hCommit, point, claimedValue⟩

/-- `Verify` of kzg.go in the discrete-log model: forms
`[f(α) - f(a)]G1`, `-H` and `[α - a]G2` exactly as the code does and runs
the two-pair pairing check. -/
def Verify (commitment : F) (proof : OpeningProof F) (srs : SRS F) :
    Outcome (KzgErr E) Unit :=
  Outcome.bind (readAt srs.G1 0) fun g1gen =>
    let claimedValueG1 := proof.ClaimedValue * g1gen
    let fminusfa := commitment - claimedValueG1
    let negH := -proof.H
    let alphaMinusa := -(proof.Point * srs.G2.1) + srs.G2.2
    if pairingCheck [(fminusfa, srs.G2.1), (negH, alphaMinusa)] then .ok ()
    else .err .ErrVerifyOpeningProof

/-- Modelled from the spec: the external Fiat-Shamir transcript primitive
(section 6, `Transcript{Bind, Squeeze}`).  The transcript state is the list
of field elements bound so far; both operations may fail with an error of
type `E` which the caller must propagate unchanged. -/
structure FiatShamirT (E F : Type) where
  bindT : List F → F → Except E (List F)
  squeeze : List F → Except E F

/-- `deriveGamma` of kzg.go: binds the evaluation point and then every
digest in list order to a fresh transcript and squeezes one challenge,
propagating any transcript error. -/
def deriveGamma (fs : FiatShamirT E F) (point : F) (digests : List F) : Except E F := do
  let s ← fs.bindT [] point
  let s ← digests.foldlM (fun st d => fs.bindT st d) s
  fs.squeeze s

/-- `fold` of kzg.go: folds evaluations as the sum of pairwise products and
digests by a multi-scalar multiplication with the same factors. -/
def fold (digests evaluations factors : List F) : F × F :=
  (msm digests factors, (List.zipWith (fun e f => e * f) evaluations factors).sum)

/-- `FoldProof` of kzg.go: after the digest-count check it recomputes gamma
by the transcript protocol; note that the source replaces a transcript
error by `ErrInvalidNbDigests` at this point.  It then folds claimed values
and digests by the powers of gamma. -/
def FoldProof (fs : FiatShamirT E F) (digests : List F)
    (batchOpeningProof : BatchOpeningProof F) :
    Outcome (KzgErr E) (OpeningProof F × F) :=
  if digests.length ≠ batchOpeningProof.ClaimedValues.length then .err .ErrInvalidNbDigests
  else
    match deriveGamma fs batchOpeningProof.Point digests with
    | .error _ => .err .ErrInvalidNbDigests
    | .ok gamma =>
      match digests with
      | [] => .panic
      | _ :: _ =>
        let gammai := (List.range digests.length).map (fun i => gamma ^ i)
        let folded := fold digests batchOpeningProof.ClaimedValues gammai
        .ok (⟨batchOpeningProof.H, batchOpeningProof.Point, folded.2⟩, folded.1)

/-- The per-polynomial size checks of `BatchOpenSinglePoint`, in loop order:
the first polynomial that is empty or longer than the SRS yields
`ErrInvalidPolynomialSize`, the first one longer than the domain yields
`ErrInvalidDomain`. -/
def sizeCheckLoop (g1len card : Nat) : List (List F) → Option (KzgErr E)
  | [] => none
  | p :: ps =>
    if p.length = 0 ∨ g1len < p.length then some .ErrInvalidPolynomialSize
    else if card < p.length then some .ErrInvalidDomain
    else sizeCheckLoop g1len card ps

/-- `largestPoly` of `BatchOpenSinglePoint`: the maximum polynomial length. -/
def largestPoly (polynomials : List (List F)) : Nat :=
  polynomials.foldl (fun m p => max m p.length) 0

/-- The inner accumulation loop of `BatchOpenSinglePoint`: adds
`gammaN * polynomials[i][j]` into the first `len(polynomials[i])` slots of
the accumulator buffer. -/
def addScaledInto (gammaN : F) : List F → List F → List F
  | acc, [] => acc
  | [], _ :: _ => []
  | y :: acc, x :: p => (y + x * gammaN) :: addScaledInto gammaN acc p

/-- `BatchOpenSinglePoint` of kzg.go: size checks, per-polynomial claimed
values, the Fiat-Shamir challenge bound to the point and the digests, the
Horner fold of the evaluations, the gamma-power fold of the polynomials,
and a commitment to the quotient.  With an empty polynomial list the source
reads `res.ClaimedValues[-1]` and allocates a buffer of length `-1`, which
panics. -/
def BatchOpenSinglePoint (numCpus card : Nat) (fs : FiatShamirT E F)
    (polynomials : List (List F)) (digests : List F) (point : F) (srs : SRS F) :
    Outcome (KzgErr E) (BatchOpeningProof F) :=
  if digests.length ≠ polynomials.length then .err .ErrInvalidNbDigests
  else
    match sizeCheckLoop (E := E) srs.G1.length card polynomials with
    | some e => .err e
    | none =>
      let claimedValues := polynomials.map (fun p => evalPoly p point)
      match deriveGamma fs point digests with
      | .error e => .err (.external e)
      | .ok gamma =>
        match polynomials with
        | [] => .panic
        | p0 :: rest =>
          let sumGammaiTimesEval := evalPoly claimedValues gamma
          let buf := p0 ++ List.replicate (largestPoly polynomials - p0.length) 0
          let sumGammaiTimesPol :=
            (rest.foldl (fun acc pi => (addScaledInto acc.2 acc.1 pi, acc.2 * gamma))
              (buf, gamma)).1
          let h := dividePolyByXminusA card sumGammaiTimesPol sumGammaiTimesEval point
          Outcome.bind (Commit (E := E) false numCpus h srs) fun hCommit =>
            .ok ⟨hCommit, point, claimedValues⟩

/-- `BatchVerifySinglePoint` of kzg.go: fold the batch proof, then verify
the folded proof against the folded digest. -/
def BatchVerifySinglePoint (fs : FiatShamirT E F) (digests : List F)
    (batchOpeningProof : BatchOpeningProof F) (srs : SRS F) :
    Outcome (KzgErr E) Unit :=
  Outcome.bind (FoldProof fs digests batchOpeningProof) fun folded =>
    Verify folded.2 folded.1 srs

/-- `BatchVerifyMultiPoints` of kzg.go.  `rand` models the verifier's local
randomness source (`SetRandom`), read at indices `1 … m-1`.  After the
length-consistency check a single pair degenerates to `Verify`; with empty
lists the source executes `randomNumbers[0].SetOne()` on an empty slice and
panics; otherwise the quotients, digests and evaluations are folded by the
random coefficients into one two-pair pairing check. -/
def BatchVerifyMultiPoints (rand : Nat → F) (digests : List F)
    (proofs : List (OpeningProof F)) (srs : SRS F) : Outcome (KzgErr E) Unit :=
  if digests.length ≠ proofs.length then .err .ErrInvalidNbDigests
  else
    match digests, proofs with
    | [d], [proof] => Verify d proof srs
    | [], _ => .panic
    | _, _ =>
      let randomNumbers := (List.range digests.length).map
        (fun i => if i = 0 then (1 : F) else rand i)
      let quotients := proofs.map (fun proof => proof.H)
      let foldedQuotients := msm quotients randomNumbers
      let evals := proofs.map (fun proof => proof.ClaimedValue)
      let folded := fold digests evals randomNumbers
      Outcome.bind (readAt srs.G1 0) fun g1gen =>
        let foldedEvalsCommit := folded.2 * g1gen
        let foldedDigests := folded.1 - foldedEvalsCommit
        let randomPointNumbers := List.zipWith (fun r proof => r * proof.Point)
          randomNumbers proofs
        let foldedPointsQuotients := msm quotients randomPointNumbers
        let lhs1 := foldedDigests + foldedPointsQuotients
        let lhs2 := -foldedQuotients
        if pairingCheck [(lhs1, srs.G2.1), (lhs2, srs.G2.2)] then .ok ()
        else .err .ErrVerifyOpeningProof

/-- `Open` of kzg.go with the caller's buffer made explicit: the first
component of the result is the content of the caller's coefficient slice
after the call.  The source copies `p` into a fresh buffer `_p` and hands
only that copy to the in-place `dividePolyByXminusA`, so the caller's
buffer is returned as it came in. -/
def OpenTracked (numCpus card : Nat) (p : List F) (point : F) (srs : SRS F) :
    List F × Outcome (KzgErr E) (OpeningProof F) :=
  if p.length = 0 ∨ srs.G1.length < p.length then (p, .err .ErrInvalidPolynomialSize)
  else if card < p.length then (p, .err .ErrInvalidDomain)
  else
    let claimedValue := evalPoly p point
    let scratch := p
    let h := dividePolyByXminusA card scratch claimedValue point
    (p,
      Outcome.bind (Commit (E := E) false numCpus h srs) fun hCommit =>
        .ok ⟨hCommit, point, claimedValue⟩)

end Kzg

namespace Iop

variable {F : Type} [Field F] [DecidableEq F]

/-- Modelled from the spec: the basis tag of an iop polynomial
(`Basis ∈ {Canonical, Lagrange, LagrangeCoset}`). -/
inductive Basis where
  | canonical
  | lagrange
  | lagrangeCoset
  deriving DecidableEq, Repr

/-- Modelled from the spec: the layout tag of an iop polynomial
(`Layout ∈ {Regular, BitReverse}`). -/
inductive Layout where
  | regular
  | bitReverse
  deriving DecidableEq, Repr

/-- Modelled from the spec: the form of an iop polynomial, a basis and a
layout. -/
structure Form where
  Basis : Basis
  Layout : Layout
  deriving DecidableEq, Repr

/-- Modelled from the spec: an iop `Polynomial` is an ordered sequence of
field coefficients tagged with a basis and a layout. -/
structure Polynomial (F : Type) where
  coefficients : List F
  Basis : Basis
  Layout : Layout
  deriving DecidableEq, Repr

/-- Modelled from the spec: the part of the external fft `Domain` structure
the ratio builder reads: cardinality, the domain generator, the first
twiddle row (`Twiddles[0]`, the powers `1, ω, …, ω^(s/2-1)`), the
multiplicative coset generator and the coset table. -/
structure Domain (F : Type) where
  Cardinality : Nat
  Generator : F
  Twiddles0 : List F
  FrMultiplicativeGen : F
  CosetTable : List F
  deriving DecidableEq, Repr

/-- Modelled from the spec: the external operations the ratio builder
consumes and does not implement — creation of a fresh fft domain, the
conversion of a non-Lagrange polynomial to the Lagrange basis, and the
forward/inverse transforms used for the output basis conversion. -/
structure ExtOps (F : Type) where
  newDomain : Nat → Domain F
  toLagrangeExt : Domain F → Polynomial F → Polynomial F
  fftInverseDIF : Domain F → List F → List F
  fftCosetDIT : Domain F → List F → List F

/-- The error values of the ratios part of the iop package
(`errors.New` block of ratios.go). -/
inductive RatioErr where
  | ErrMustBeRegular
  | ErrMustBeCanonical
  | ErrMustBeLagrangeCoset
  | ErrInconsistentFormat
  | ErrInconsistentSize
  | ErrNumberPolynomials
  | ErrSizeNotPowerOfTwo
  | ErrInconsistentSizeDomain
  | ErrIncorrectNumberOfVariables
  deriving DecidableEq, Repr

/-- Reversal of the low `k` bits of `i`: the value of
`bits.Reverse64(uint64(i)) >> (64 - k)`. -/
def bitRev : Nat → Nat → Nat
  | 0, _ => 0
  | k + 1, i => bitRev k (i / 2) + (i % 2) * 2 ^ k

/-- The raw index at which the evaluation at the `i`-th domain root is
stored in a coefficient slice of length `n`, given the slice's layout:
`i` for Regular, the bit-reversal of `i` for BitReverse (ratios.go computes
`iRev = bits.Reverse64(uint64(i)) >> nn` with `nn = 64 - log₂(n)`). -/
def layoutIdx (n : Nat) : Layout → Nat → Nat
  | .regular, i => i
  | .bitReverse, i => bitRev (Nat.log2 n) i

/-- The evaluation of a Lagrange-basis polynomial of length `n` at the
`i`-th domain root, reading the coefficient slice through the layout. -/
def lagEval (n : Nat) (p : Polynomial F) (i : Nat) : F :=
  p.coefficients.getD (layoutIdx n p.Layout i) 0

/-- `ToLagrange` of the iop polynomial package (outside src/), modelled
from the spec: a polynomial already in the Lagrange basis is returned
unchanged; any other basis is converted by the external FFT machinery. -/
def toLagrange (ops : ExtOps F) (d : Domain F) (p : Polynomial F) : Polynomial F :=
  match p.Basis with
  | .lagrange => p
  | _ => ops.toLagrangeExt d p

/-- Modelled from the spec: `fft.BitReverse` (external fft package)
permutes a slice by the bit-reversal permutation on its indices. -/
def bitReversePerm (l : List F) : List F :=
  (List.range l.length).map (fun i => l.getD (bitRev (Nat.log2 l.length) i) 0)

/-- `putInExpectedFormFromLagrangeRegular` of ratios.go: converts the
Lagrange/Regular result to the caller's requested form, using the inverse
transform for Canonical, inverse-then-coset-forward for LagrangeCoset, and
bit-reversal where the requested layout asks for it. -/
def putInExpectedFormFromLagrangeRegular (ops : ExtOps F) (d : Domain F)
    (p : Polynomial F) (expectedForm : Form) : Polynomial F :=
  match expectedForm.Basis with
  | .canonical =>
    let c := ops.fftInverseDIF d p.coefficients
    let c := if expectedForm.Layout = .regular then bitReversePerm c else c
    ⟨c, expectedForm.Basis, expectedForm.Layout⟩
  | .lagrangeCoset =>
    let c := ops.fftInverseDIF d p.coefficients
    let c := ops.fftCosetDIT d c
    let c := if expectedForm.Layout = .bitReverse then bitReversePerm c else c
    ⟨c, expectedForm.Basis, expectedForm.Layout⟩
  | .lagrange =>
    let c := if expectedForm.Layout = .bitReverse then bitReversePerm p.coefficients
      else p.coefficients
    ⟨c, expectedForm.Basis, expectedForm.Layout⟩

/-- One cell check of `checkSize` of ratios.go: read `pols[i][j]` (panicking
when out of range, as the Go slice indexing does) and compare its length
with `n`. -/
def checkCell (pols : List (List (Polynomial F))) (n : Nat) (ij : Nat × Nat) :
    Outcome RatioErr Unit :=
  match (pols.get? ij.1).bind (fun l => l.get? ij.2) with
  | none => .panic
  | some p => if p.coefficients.length ≠ n then .err .ErrInconsistentSize else .ok ()

/-- `checkSize` of ratios.go, including its index bound: the outer loop
runs `i` over the number of *slices* `m = len(pols)` and the inner loop
runs `j` over the same bound `m` (not over `len(pols[i])`), so only the
first `m` polynomials of each slice are inspected, and a slice shorter
than `m` makes the read `pols[i][j]` panic. -/
def checkSize (pols : List (List (Polynomial F))) : Outcome RatioErr Unit :=
  match (pols.get? 0).bind (fun l => l.get? 0) with
  | none => .panic
  | some p0 =>
    let n := p0.coefficients.length
    let m := pols.length
    Outcome.forListM
      (fun i => Outcome.forListM (fun j => checkCell pols n (i, j)) (List.range m))
      (List.range m)

/-- `buildDomain` of ratios.go: rejects sizes that are not powers of two
(the Go test `n&(n-1) != 0`), creates a fresh domain when none is given,
and requires a supplied domain to match the polynomial size. -/
def buildDomain (newDomain : Nat → Domain F) (n : Nat) (odomain : Option (Domain F)) :
    Outcome RatioErr (Domain F) :=
  if n &&& (n - 1) ≠ 0 then .err .ErrSizeNotPowerOfTwo
  else
    let d := match odomain with
      | none => newDomain n
      | some d => d
    if d.Cardinality ≠ n then .err .ErrInconsistentSizeDomain
    else .ok d

/-- Modelled from the spec: `fr.BatchInvert` (external field arithmetic)
inverts every slice entry, keeping zero entries at zero — which is the
convention of field inversion in Lean. -/
def batchInvert (l : List F) : List F :=
  l.map (fun x => x⁻¹)

/-- The running-product recurrence `coeffs[i+1] = coeffs[i] * b_i` of
`BuildRatioShuffledVectors`, with `coeffs[0] = x`. -/
def prefixScan (x : F) : List F → List F
  | [] => [x]
  | b :: bs => x :: prefixScan (x * b) bs

/-- The running-product recurrence of `BuildRatioCopyConstraint`: the
per-step terms are stored first and the sequential pass computes
`coeffs[i] = coeffs[i] * coeffs[i-1]`, so the new head factor stands on
the left. -/
def prefixScan2 (x : F) : List F → List F
  | [] => [x]
  | b :: bs => x :: prefixScan2 (b * x) bs

/-- The final pointwise multiplication `coeffs[i] *= tInv[i]` for
`i = 1 … n-1` of both ratio builders: the slot 0 is left untouched. -/
def applyInvFrom1 : List F → List F → List F
  | [], _ => []
  | c :: cs, [] => c :: cs
  | c :: cs, _ :: ts => c :: List.zipWith (fun x y => x * y) cs ts

/-- The chain `res[i+1] = res[i] * g` of `getSupportIdentityPermutation`:
`k` further elements, each the previous one multiplied by `g`. -/
def extendChain (g last : F) : Nat → List F
  | 0 => []
  | k + 1 => (last * g) :: extendChain g (last * g) k

/-- The first block (the plain roots of unity) of the identity-permutation
support table: the first `s/2` slots are copied from `Twiddles[0]` (slots
beyond the copied data stay zero), the remaining `s - s/2` slots are the
chain extension by the domain generator. -/
def supportBlock0 (d : Domain F) : List F :=
  let s := d.Cardinality
  let half := s / 2
  let copyPart := (d.Twiddles0 ++ List.replicate half 0).take half
  copyPart ++ extendChain d.Generator (copyPart.getD (half - 1) 0) (s - half)

/-- The coset factor used for the `i`-th copy (`i ≥ 1`) in
`getSupportIdentityPermutation`: the multiplicative generator for the first
coset, the coset-table entry when present, and an explicit power otherwise. -/
def cosetOf (d : Domain F) (i : Nat) : F :=
  if i = 1 then d.FrMultiplicativeGen
  else
    match d.CosetTable.get? i with
    | some c => c
    | none => d.FrMultiplicativeGen ^ i

/-- The value of the identity-permutation support table when its
construction does not panic: the block of roots of unity followed by its
`m - 1` coset translates. -/
def supportTable (m : Nat) (d : Domain F) : List F :=
  supportBlock0 d ++
    ((List.range (m - 1)).map
      (fun i => (supportBlock0 d).map (fun x => x * cosetOf d (i + 1)))).join

/-- `getSupportIdentityPermutation` of ratios.go.  With a domain of
cardinality 1 the extension loop starts at index `-1` and the slice read
`res[i]` panics; with `nbCopies = 0` (and a nonzero cardinality) the result
slice is empty and the extension loop's write `res[i+1]` panics.  In every
other case the table is `supportTable`. -/
def getSupportIdentityPermutation (nbCopies : Nat) (d : Domain F) :
    Outcome RatioErr (List F) :=
  if d.Cardinality = 1 then .panic
  else if nbCopies = 0 then
    (if d.Cardinality = 0 then .ok [] else .panic)
  else .ok (supportTable nbCopies d)

/-- One factor of the step-`i` numerator product of
`BuildRatioShuffledVectors`: read the polynomial's evaluation at the `i`-th
root through its layout and subtract it from beta, accumulating into the
running product. -/
def shuffleTerm (beta : F) (n i iRev : Nat) (acc : F) (p : Polynomial F) :
    Outcome RatioErr F :=
  let idx := match p.Layout with
    | .bitReverse => iRev
    | .regular => i
  Outcome.bind (readAt p.coefficients idx) fun x => .ok (acc * (beta - x))

/-- The step-`i` pair `(b, d)` of `BuildRatioShuffledVectors`: the products
over the numerator list and the denominator list. -/
def shuffleStep (beta : F) (n : Nat) (num den : List (Polynomial F)) (i : Nat) :
    Outcome RatioErr (F × F) :=
  let iRev := bitRev (Nat.log2 n) i
  Outcome.bind (Outcome.foldListM (shuffleTerm beta n i iRev) 1 num) fun b =>
    Outcome.bind (Outcome.foldListM (shuffleTerm beta n i iRev) 1 den) fun d =>
      .ok (b, d)

/-- `BuildRatioShuffledVectors` of ratios.go: list-length check, the buggy
`checkSize`, domain construction, Lagrange conversion, the per-step
products, the two running products, one batch inversion and the pointwise
multiplication, and the conversion of the Lagrange/Regular result to the
caller's expected form. -/
def BuildRatioShuffledVectors (ops : ExtOps F) (numerator denominator : List (Polynomial F))
    (beta : F) (expectedForm : Form) (odomain : Option (Domain F)) :
    Outcome RatioErr (Polynomial F) :=
  if numerator.length ≠ denominator.length then .err .ErrNumberPolynomials
  else
    Outcome.bind (checkSize [numerator, denominator]) fun _ =>
    Outcome.bind
      (match numerator.get? 0 with
       | some p => .ok p.coefficients.length
       | none => .panic) fun n =>
    Outcome.bind (buildDomain ops.newDomain n odomain) fun d =>
    let num2 := numerator.map (toLagrange ops d)
    let den2 := denominator.map (toLagrange ops d)
    Outcome.bind (Outcome.mapListM (shuffleStep beta n num2 den2) (List.range (n - 1)))
      fun bds =>
    let coeffs := prefixScan 1 (bds.map Prod.fst)
    let t := prefixScan 1 (bds.map Prod.snd)
    let finalCoeffs := applyInvFrom1 coeffs (batchInvert t)
    .ok (putInExpectedFormFromLagrangeRegular ops d
      ⟨finalCoeffs, expectedForm.Basis, expectedForm.Layout⟩ expectedForm)

/-- One factor pair of the step-`i` products of `BuildRatioCopyConstraint`
for the entry of index `j`: the numerator factor uses the identity-support
value at `i + j*n`, the denominator factor the one at `permutation[i + j*n]`
(panicking on an out-of-range or negative permutation entry, as the Go
slice indexing does); both share the entry's evaluation read through its
layout. -/
def copyTerm (tbl : List F) (permutation : List Int) (beta gamma : F) (n i iRev : Nat)
    (acc : F × F) (jp : Nat × Polynomial F) : Outcome RatioErr (F × F) :=
  let idx := match jp.2.Layout with
    | .bitReverse => iRev
    | .regular => i
  Outcome.bind (readAt jp.2.coefficients idx) fun x =>
  Outcome.bind (readAt tbl (i + jp.1 * n)) fun idv =>
  Outcome.bind
    (match permutation.get? (i + jp.1 * n) with
     | none => .panic
     | some s => if s < 0 then .panic else readAt tbl s.toNat) fun sv =>
  .ok (acc.1 * (beta * idv + gamma + x), acc.2 * (beta * sv + gamma + x))

/-- The step-`i` pair `(b, d)` of `BuildRatioCopyConstraint`. -/
def copyStep (tbl : List F) (permutation : List Int) (beta gamma : F) (n : Nat)
    (entries : List (Polynomial F)) (i : Nat) : Outcome RatioErr (F × F) :=
  let iRev := bitRev (Nat.log2 n) i
  Outcome.foldListM (copyTerm tbl permutation beta gamma n i iRev) (1, 1) entries.enum

/-- `BuildRatioCopyConstraint` of ratios.go: the buggy `checkSize` (which,
called with the single slice `entries`, only ever inspects `entries[0]`),
domain construction, Lagrange conversion, the identity-support table, the
per-step products over the entries, the two running products, the sharded
batch inversion and pointwise multiplication, and the conversion of the
Lagrange/Regular result to the caller's expected form. -/
def BuildRatioCopyConstraint (ops : ExtOps F) (entries : List (Polynomial F))
    (permutation : List Int) (beta gamma : F) (expectedForm : Form)
    (odomain : Option (Domain F)) : Outcome RatioErr (Polynomial F) :=
  Outcome.bind (checkSize [entries]) fun _ =>
  Outcome.bind
    (match entries.get? 0 with
     | some p => .ok p.coefficients.length
     | none => .panic) fun n =>
  Outcome.bind (buildDomain ops.newDomain n odomain) fun d =>
  let entries2 := entries.map (toLagrange ops d)
  Outcome.bind (getSupportIdentityPermutation entries.length d) fun tbl =>
  Outcome.bind (Outcome.mapListM (copyStep tbl permutation beta gamma n entries2)
    (List.range (n - 1))) fun bds =>
  let coeffs := prefixScan2 1 (bds.map Prod.fst)
  let t := prefixScan2 1 (bds.map Prod.snd)
  let finalCoeffs := applyInvFrom1 coeffs (batchInvert t)
  .ok (putInExpectedFormFromLagrangeRegular ops d
    ⟨finalCoeffs, expectedForm.Basis, expectedForm.Layout⟩ expectedForm)

end Iop

namespace Kzg

variable {F : Type} [Field F] [DecidableEq F] {E : Type}

/-- A concrete failing transcript over `Fin 5`: every bind and every
squeeze reports the external error `true`. -/
def fsFailing : FiatShamirT Bool (Fin 5) :=
  ⟨fun _ _ => .error true, fun _ => .error true⟩

/-- A concrete working transcript over `Fin 5`: binding appends to the
state and squeezing sums the state. -/
def fsWorking : FiatShamirT Unit (Fin 5) :=
  ⟨fun s x => .ok (s ++ [x]), fun s => .ok s.sum⟩

/-- A concrete SRS over `Fin 5` (the one `NewSRS 2 2` produces). -/
def srsEx : SRS (Fin 5) := ⟨[1, 2], (1, 2)⟩

end Kzg

namespace Iop

variable {F : Type} [Field F] [DecidableEq F]

/-- One factor of the step-`i` products of `BuildRatioCopyConstraint` for
the pair `jp = (j, entry)`, in pure form:
`beta * id[i + j*n] + gamma + entry(omega^i)`. -/
def copyFactor (tbl : List F) (beta gamma : F) (n i : Nat) (jp : Nat × Polynomial F) : F :=
  beta * tbl.getD (i + jp.1 * n) 0 + gamma
    + jp.2.coefficients.getD (layoutIdx n jp.2.Layout i) 0

/-- Trivial concrete instantiation of the external operations over
`Fin 5` (the theorems below only exercise inputs on which these
operations are not consulted). -/
def opsEx : ExtOps (Fin 5) :=
  ⟨fun n => ⟨n, 0, [], 0, []⟩, fun _ p => p, fun _ l => l, fun _ l => l⟩

/-- A concrete domain of cardinality 2 over `Fin 5`: generator 4 (the
primitive square root of unity), `Twiddles[0] = [1]`, coset generator 2. -/
def dom2Ex : Domain (Fin 5) := ⟨2, 4, [1], 2, []⟩

/-- A concrete domain of cardinality 1 over `Fin 5`. -/
def dom1Ex : Domain (Fin 5) := ⟨1, 1, [], 2, []⟩

end Iop

/-! ## Theorems: properties of the embedded operations, and the claims -/

namespace Outcome

@[simp] theorem bind_ok {ε α β : Type} (a : α) (f : α → Outcome ε β) :
    Outcome.bind (Outcome.ok a) f = f a := rfl

@[simp] theorem bind_err {ε α β : Type} (e : ε) (f : α → Outcome ε β) :
    Outcome.bind (Outcome.err e) f = Outcome.err e := rfl

@[simp] theorem bind_panic {ε α β : Type} (f : α → Outcome ε β) :
    Outcome.bind (Outcome.panic : Outcome ε α) f = Outcome.panic := rfl

@[simp] theorem monad_bind_eq_bind {ε α β : Type} (x : Outcome ε α) (f : α → Outcome ε β) :
    x >>= f = Outcome.bind x f := rfl

@[simp] theorem mapListM_nil {ε α β : Type} (f : α → Outcome ε β) :
    mapListM f [] = .ok [] := rfl

@[simp] theorem mapListM_cons {ε α β : Type} (f : α → Outcome ε β) (x : α) (xs : List α) :
    mapListM f (x :: xs) =
      Outcome.bind (f x) fun y => Outcome.bind (mapListM f xs) fun ys => .ok (y :: ys) := rfl

@[simp] theorem foldListM_nil {ε α β : Type} (f : β → α → Outcome ε β) (b : β) :
    foldListM f b [] = .ok b := rfl

@[simp] theorem foldListM_cons {ε α β : Type} (f : β → α → Outcome ε β) (b : β)
    (x : α) (xs : List α) :
    foldListM f b (x :: xs) = Outcome.bind (f b x) fun b2 => foldListM f b2 xs := rfl

@[simp] theorem forListM_nil {ε α : Type} (f : α → Outcome ε Unit) :
    forListM f [] = .ok () := rfl

@[simp] theorem forListM_cons {ε α : Type} (f : α → Outcome ε Unit) (x : α) (xs : List α) :
    forListM f (x :: xs) = Outcome.bind (f x) fun _ => forListM f xs := rfl

end Outcome

theorem readAt_of_lt {ε α : Type} [Inhabited α] (l : List α) (i : Nat) (h : i < l.length) :
    readAt (ε := ε) l i = .ok (l.getD i default) := by
  unfold readAt
  rw [List.get?_eq_get h, List.getD_eq_getElem l default h]
  rfl

theorem mapListM_ok {ε α β : Type} (f : α → Outcome ε β) (g : α → β) (l : List α)
    (h : ∀ x ∈ l, f x = .ok (g x)) :
    Outcome.mapListM f l = .ok (l.map g) := by
  induction l with
  | nil => rfl
  | cons x xs ih =>
      simp only [Outcome.mapListM_cons, h x (List.mem_cons_self x xs),
        ih (fun y hy => h y (List.mem_cons_of_mem x hy)), Outcome.bind_ok, List.map_cons]

namespace Kzg

variable {F : Type} [Field F] [DecidableEq F] {E : Type}

@[simp] theorem evalPoly_nil (z : F) : evalPoly ([] : List F) z = 0 := rfl

@[simp] theorem evalPoly_cons (c : F) (p : List F) (z : F) :
    evalPoly (c :: p) z = c + z * evalPoly p z := rfl

@[simp] theorem synthDivAux_nil (a : F) : synthDivAux a ([] : List F) = (0, []) := rfl

@[simp] theorem synthDivAux_cons (a x : F) (xs : List F) :
    synthDivAux a (x :: xs) =
      ((x + (synthDivAux a xs).1 * a, (synthDivAux a xs).1 :: (synthDivAux a xs).2)) := rfl

end Kzg

namespace Iop

variable {F : Type} [Field F] [DecidableEq F]

theorem bitRev_lt (k i : Nat) : bitRev k i < 2 ^ k := by
  induction k generalizing i with
  | zero => simp [bitRev]
  | succ k ih =>
      have h1 : bitRev k (i / 2) < 2 ^ k := ih (i / 2)
      have h2 : i % 2 ≤ 1 := Nat.le_of_lt_succ (Nat.mod_lt i (by norm_num))
      have h3 : (i % 2) * 2 ^ k ≤ 2 ^ k := by
        calc (i % 2) * 2 ^ k ≤ 1 * 2 ^ k := Nat.mul_le_mul_right _ h2
        _ = 2 ^ k := one_mul _
      have : bitRev k (i / 2) + (i % 2) * 2 ^ k < 2 ^ k + 2 ^ k :=
        Nat.add_lt_add_of_lt_of_le h1 h3
      calc bitRev (k + 1) i = bitRev k (i / 2) + (i % 2) * 2 ^ k := rfl
      _ < 2 ^ k + 2 ^ k := this
      _ = 2 ^ (k + 1) := by ring

@[simp] theorem extendChain_length (g last : F) (k : Nat) :
    (extendChain g last k).length = k := by
  induction k generalizing last with
  | zero => rfl
  | succ k ih => simp [extendChain, ih]

theorem supportBlock0_length (d : Domain F) :
    (supportBlock0 d).length = d.Cardinality := by
  unfold supportBlock0
  simp only [List.length_append, List.length_take, extendChain_length, List.length_replicate]
  omega

theorem supportTable_length (m : Nat) (d : Domain F) (hm : 1 ≤ m) :
    (supportTable m d).length = m * d.Cardinality := by
  unfold supportTable
  rw [List.length_append, List.length_join]
  have hmap : ((List.range (m - 1)).map
      (fun i => (supportBlock0 d).map (fun x => x * cosetOf d (i + 1)))).map List.length
      = (List.range (m - 1)).map (fun _ => d.Cardinality) := by
    rw [List.map_map]
    refine List.map_congr_left (fun i _ => ?_)
    simp [supportBlock0_length]
  rw [hmap]
  have hsum : (List.map (fun _ => d.Cardinality) (List.range (m - 1))).sum
      = (m - 1) * d.Cardinality := by
    rw [List.map_const', List.sum_replicate, List.length_range, smul_eq_mul]
  rw [hsum, supportBlock0_length]
  cases m with
  | zero => omega
  | succ m =>
      simp only [Nat.succ_sub_one]
      ring

end Iop

namespace Kzg

variable {F : Type} [Field F] [DecidableEq F] {E : Type}

/-! ### Arithmetic facts about the embedded KZG operations -/

theorem synthDivAux_fst (a : F) (g : List F) :
    (synthDivAux a g).1 = evalPoly g a := by
  induction g with
  | nil => simp [synthDivAux]
  | cons x xs ih =>
      simp only [synthDivAux_cons, evalPoly_cons, ih]
      ring

theorem synthDivAux_snd_eval (a z : F) (g : List F) :
    evalPoly g z = evalPoly (synthDivAux a g).2 z * (z - a) + evalPoly g a := by
  induction g with
  | nil => simp
  | cons x xs ih =>
      simp only [synthDivAux_cons, evalPoly_cons, synthDivAux_fst]
      conv_lhs => rw [ih]
      ring

theorem synthDivAux_snd_length (a : F) (g : List F) :
    (synthDivAux a g).2.length = g.length := by
  induction g with
  | nil => rfl
  | cons x xs ih => simp [synthDivAux, ih]

theorem synthDivAux_replicate_zero (a : F) (k : Nat) :
    synthDivAux a (List.replicate k (0 : F)) = (0, List.replicate k 0) := by
  induction k with
  | zero => rfl
  | succ k ih => simp [List.replicate_succ, synthDivAux, ih]

theorem synthDivAux_append_zeros (a : F) (f : List F) (k : Nat) :
    synthDivAux a (f ++ List.replicate k 0) =
      ((synthDivAux a f).1, (synthDivAux a f).2 ++ List.replicate k 0) := by
  induction f with
  | nil => simp [synthDivAux_replicate_zero, synthDivAux]
  | cons x xs ih => simp [synthDivAux, ih]

theorem evalPoly_replicate_zero (z : F) (k : Nat) :
    evalPoly (List.replicate k (0 : F)) z = 0 := by
  induction k with
  | zero => rfl
  | succ k ih => simp [List.replicate_succ, ih]

theorem evalPoly_append_zeros (z : F) (l : List F) (k : Nat) :
    evalPoly (l ++ List.replicate k 0) z = evalPoly l z := by
  induction l with
  | nil => simp [evalPoly_replicate_zero]
  | cons x xs ih => simp [ih]

theorem evalPoly_take_snd (a z : F) (g : List F) :
    evalPoly ((synthDivAux a g).2.take (g.length - 1)) z
      = evalPoly (synthDivAux a g).2 z := by
  induction g with
  | nil => simp
  | cons x xs ih =>
      cases xs with
      | nil => simp [synthDivAux, evalPoly]
      | cons y ys =>
          rw [synthDivAux_cons]
          have hl : (x :: y :: ys).length - 1 = ys.length + 1 := by simp
          rw [hl, List.take_succ_cons, evalPoly_cons, evalPoly_cons]
          have ih2 := ih
          simp only [List.length_cons, Nat.succ_sub_one] at ih2
          rw [ih2]

theorem subConst_eval (fa z : F) (x : F) (xs : List F) :
    evalPoly (subConst fa (x :: xs)) z = evalPoly (x :: xs) z - fa := by
  simp [subConst]
  ring

theorem subConst_length (fa : F) (l : List F) : (subConst fa l).length = l.length := by
  cases l <;> simp [subConst]

theorem dividePoly_length (card : Nat) (f : List F) (fa a : F) (h : f.length ≤ card) :
    (dividePolyByXminusA card f fa a).length = f.length - 1 := by
  simp only [dividePolyByXminusA, List.length_take, synthDivAux_snd_length, subConst_length,
    List.length_append, List.length_replicate]
  omega

/-- Key property of the synthetic division run by `Open` and
`BatchOpenSinglePoint`: the quotient times `(z - a)` reconstructs
`f(z) - fa` up to the remainder `f(a) - fa`. -/
theorem dividePoly_mul (card : Nat) (f : List F) (fa a z : F) (hne : f ≠ [])
    (h : f.length ≤ card) :
    evalPoly (dividePolyByXminusA card f fa a) z * (z - a)
      = (evalPoly f z - fa) - (evalPoly f a - fa) := by
  obtain ⟨x, xs, rfl⟩ := List.exists_cons_of_ne_nil hne
  have h2 : xs.length + 1 ≤ card := by simpa using h
  simp only [dividePolyByXminusA]
  have hlen : ((x :: xs) ++ List.replicate (card - (x :: xs).length) 0).length = card := by
    simp only [List.length_append, List.length_cons, List.length_replicate]
    omega
  rw [List.take_of_length_le (le_of_eq hlen)]
  have hsplit :
      subConst fa ((x :: xs) ++ List.replicate (card - (x :: xs).length) 0)
        = subConst fa (x :: xs) ++ List.replicate (card - (x :: xs).length) 0 := rfl
  rw [hsplit, synthDivAux_append_zeros]
  have htake :
      ((synthDivAux a (subConst fa (x :: xs))).2 ++
          List.replicate (card - (x :: xs).length) 0).take ((x :: xs).length - 1)
        = (synthDivAux a (subConst fa (x :: xs))).2.take ((x :: xs).length - 1) := by
    refine List.take_append_of_le_length ?_
    rw [synthDivAux_snd_length]
    cases xs <;> simp [subConst]
  rw [htake]
  have hconst : (subConst fa (x :: xs)).length = (x :: xs).length := by simp [subConst]
  rw [← hconst, evalPoly_take_snd]
  have hid := synthDivAux_snd_eval a z (subConst fa (x :: xs))
  have hz := subConst_eval fa z x xs
  have ha := subConst_eval fa a x xs
  rw [hz, ha] at hid
  linear_combination -hid

theorem msm_pow_range' (alpha : F) (q : List F) :
    ∀ k : Nat, msm ((List.range' k q.length).map (fun i => alpha ^ i)) q
      = alpha ^ k * evalPoly q alpha := by
  induction q with
  | nil => intro k; simp [msm]
  | cons x xs ih =>
      intro k
      have hr : List.range' k (xs.length + 1) = k :: List.range' (k + 1) xs.length :=
        List.range'_succ k xs.length 1
      simp only [List.length_cons, hr, List.map_cons, msm, List.zipWith_cons_cons,
        List.sum_cons, evalPoly_cons]
      have := ih (k + 1)
      simp only [msm] at this
      rw [this]
      rw [pow_succ]
      ring

/-- Committing to `q` against the powers-of-alpha SRS yields `q(alpha)` in
the discrete-log model. -/
theorem msm_take_powers (alpha : F) (q : List F) (n : Nat) (h : q.length ≤ n) :
    msm (((List.range n).map (fun i => alpha ^ i)).take q.length) q
      = evalPoly q alpha := by
  rw [← List.map_take, List.take_range, min_eq_left h, List.range_eq_range']
  have := msm_pow_range' alpha q 0
  simpa using this

theorem msm_split (G p : List F) (m : Nat) :
    msm (G.take m) (p.take m) + msm (G.drop m) (p.drop m) = msm G p := by
  unfold msm
  rw [← List.take_zipWith, ← List.drop_zipWith, List.sum_take_add_sum_drop]

/-- The branches of `Commit` (with or without a limiter, split or unsplit)
all compute the single multi-scalar multiplication of the spec. -/
theorem Commit_eq_unsplit (useLimiter : Bool) (numCpus : Nat) (p : List F) (srs : SRS F) :
    Commit (E := E) useLimiter numCpus p srs = CommitUnsplitSpec p srs := by
  unfold Commit CommitUnsplitSpec
  by_cases hvalid : p.length = 0 ∨ srs.G1.length < p.length
  · rw [if_pos hvalid, if_pos hvalid]
  · rw [if_neg hvalid, if_neg hvalid]
    cases useLimiter with
    | true => rw [if_pos rfl]
    | false =>
        rw [if_neg (by simp)]
        by_cases hcpu : 16 < numCpus
        · rw [if_pos hcpu]
          have hm : p.length / 2 ≤ p.length := Nat.div_le_self _ _
          have h1 : List.take (p.length / 2) srs.G1
              = List.take (p.length / 2) (List.take p.length srs.G1) := by
            rw [List.take_take, min_eq_left hm]
          simp only [h1, msm_split]
        · rw [if_neg hcpu]

end Kzg

theorem readAt_get? {ε α : Type} (l : List α) (i : Nat) (x : α) (h : l.get? i = some x) :
    readAt (ε := ε) l i = .ok x := by
  unfold readAt
  rw [h]

namespace Kzg

variable {F : Type} [Field F] [DecidableEq F] {E : Type}

/-- Claim C3: for every polynomial accepted by Commit, the two-way split
path of Commit (no concurrency limiter, hardware parallelism above the
threshold: two half-range multi-scalar multiplications combined by group
addition) returns exactly the same group element as the single unsplit
multi-scalar multiplication; the equality in fact holds for every
combination of limiter flag and CPU count, on valid and invalid inputs
alike. -/
theorem claim_C3_commit_split_equivalent (useLimiter : Bool) (numCpus : Nat)
    (p : List F) (srs : SRS F) :
    Commit (E := E) useLimiter numCpus p srs = CommitUnsplitSpec p srs :=
  Commit_eq_unsplit useLimiter numCpus p srs

/-- Claim C1, counterexample: for the length-1 polynomial `[4]` over the
SRS produced by `NewSRS 2 2` (and a domain of cardinality 2), `Open`
returns `ErrInvalidPolynomialSize` instead of a proof: the quotient
`(f - f(z))/(x - z)` of a constant polynomial is empty and the inner
`Commit` rejects it.  The claimed composite
`Verify(Commit(p), Open(p, z), SRS)` therefore cannot succeed at
`len(p) = 1`. -/
theorem claim_C1_counterexample :
    Kzg.NewSRS (E := Unit) 2 (2 : Fin 5) = Outcome.ok (Kzg.SRS.mk [1, 2] (1, 2)) ∧
    Kzg.Open (E := Unit) 0 2 [(4 : Fin 5)] 1 (Kzg.SRS.mk [1, 2] (1, 2))
      = Outcome.err Kzg.KzgErr.ErrInvalidPolynomialSize := by
  constructor
  · decide
  · decide

/-- Claim C1 (amended): for every polynomial `p` with
`2 ≤ len(p) ≤ len(SRS.G1)` and `len(p)` at most the domain cardinality,
and every evaluation point `z` (domain root or not),
`Verify(Commit(p), Open(p, z, domain, SRS), SRS)` returns success.
(The original bound `1 ≤ len(p)` fails: a length-1 polynomial makes `Open`
return `ErrInvalidPolynomialSize`, see the counterexample.) -/
theorem claim_C1_verify_open_commit (numCpus size card : Nat) (alpha z : F) (p : List F)
    (hsize : 2 ≤ size) (hp : 2 ≤ p.length) (hpsize : p.length ≤ size)
    (hpcard : p.length ≤ card) :
    ∃ (srs : SRS F) (dg : F) (proof : OpeningProof F),
      NewSRS (E := Unit) size alpha = .ok srs ∧
      Commit (E := Unit) false numCpus p srs = .ok dg ∧
      Open (E := Unit) numCpus card p z srs = .ok proof ∧
      Verify (E := Unit) dg proof srs = .ok () := by
  have hpne : p ≠ [] := List.ne_nil_of_length_pos (by omega)
  have hplen0 : p.length ≠ 0 := by omega
  have hG1len : ((List.range size).map (fun i => alpha ^ i)).length = size := by
    simp
  have hvalid : ¬(p.length = 0 ∨ ((List.range size).map (fun i => alpha ^ i)).length < p.length) := by
    rw [hG1len]
    push_neg
    exact ⟨hplen0, hpsize⟩
  -- the quotient polynomial committed inside Open
  have hhlen : (dividePolyByXminusA card p (evalPoly p z) z).length = p.length - 1 :=
    dividePoly_length card p (evalPoly p z) z hpcard
  have hhvalid : ¬((dividePolyByXminusA card p (evalPoly p z) z).length = 0 ∨
      ((List.range size).map (fun i => alpha ^ i)).length
        < (dividePolyByXminusA card p (evalPoly p z) z).length) := by
    rw [hG1len, hhlen]
    push_neg
    constructor
    · omega
    · omega
  refine ⟨⟨(List.range size).map (fun i => alpha ^ i), (1, alpha)⟩,
    evalPoly p alpha,
    ⟨evalPoly (dividePolyByXminusA card p (evalPoly p z) z) alpha, z, evalPoly p z⟩,
    ?_, ?_, ?_, ?_⟩
  · rw [NewSRS, if_neg (Nat.not_lt.mpr hsize)]
  · rw [Commit_eq_unsplit, CommitUnsplitSpec]
    rw [if_neg hvalid]
    rw [msm_take_powers alpha p size hpsize]
  · rw [Open, if_neg hvalid, if_neg (by omega : ¬ card < p.length)]
    simp only [Commit_eq_unsplit, CommitUnsplitSpec]
    rw [if_neg hhvalid]
    rw [msm_take_powers alpha _ size (by omega)]
    rfl
  · rw [Verify]
    have hread : (((List.range size).map (fun i => alpha ^ i)) : List F).get? 0
        = some (alpha ^ 0) := by
      rw [List.get?_map, List.get?_range (by omega : 0 < size)]
      rfl
    rw [readAt_get? _ _ _ hread, Outcome.bind_ok]
    have hkey := dividePoly_mul card p (evalPoly p z) z alpha hpne hpcard
    have hcheck : pairingCheck
        [(evalPoly p alpha - evalPoly p z * alpha ^ 0, (1 : F)),
         (-(evalPoly (dividePolyByXminusA card p (evalPoly p z) z) alpha),
          -(z * 1) + alpha)] = true := by
      unfold pairingCheck
      rw [decide_eq_true_iff]
      simp only [List.map_cons, List.map_nil, List.sum_cons, List.sum_nil, pow_zero]
      linear_combination -hkey
    simp only [hcheck]
    rfl

/-- Claim C1, witness for the amended theorem at a concrete input: the
polynomial `[1, 2]` over `Fin 5`, SRS size 2, domain cardinality 2,
`alpha = 2`, `z = 3`. -/
theorem claim_C1_witness :
    ∃ (srs : SRS (Fin 5)) (dg : Fin 5) (proof : OpeningProof (Fin 5)),
      NewSRS (E := Unit) 2 (2 : Fin 5) = .ok srs ∧
      Commit (E := Unit) false 0 [1, 2] srs = .ok dg ∧
      Open (E := Unit) 0 2 [1, 2] 3 srs = .ok proof ∧
      Verify (E := Unit) dg proof srs = .ok () :=
  claim_C1_verify_open_commit 0 2 2 2 3 [1, 2] (by decide) (by decide) (by decide) (by decide)

/-- Claim C6: when the transcript primitive fails inside `FoldProof`'s
challenge derivation, the source returns `ErrInvalidNbDigests` instead of
the transcript's own error: with a transcript whose binding fails with the
external error `true`, `FoldProof` on one digest and one claimed value
returns `ErrInvalidNbDigests`, which is a different error value from the
propagated external error the claim requires. -/
theorem claim_C6_foldproof_swallows_transcript_error :
    FoldProof fsFailing [1] ⟨0, 0, [0]⟩
      = Outcome.err KzgErr.ErrInvalidNbDigests ∧
    (Outcome.err KzgErr.ErrInvalidNbDigests
        : Outcome (KzgErr Bool) (OpeningProof (Fin 5) × Fin 5))
      ≠ Outcome.err (KzgErr.external true) := by
  constructor
  · decide
  · decide

/-- Claim C7: two calls of `BatchOpenSinglePoint` with identical inputs
(identical polynomials, digests, point, transcript/hash state, domain
cardinality, SRS and CPU count) return identical proofs; the challenge
gamma is derived by `deriveGamma` from the point, the digest list and the
transcript alone. -/
theorem claim_C7_batchopen_deterministic (numCpus1 numCpus2 card1 card2 : Nat)
    (fs1 fs2 : FiatShamirT E F) (polys1 polys2 : List (List F))
    (digests1 digests2 : List F) (point1 point2 : F) (srs1 srs2 : SRS F)
    (h1 : numCpus1 = numCpus2) (h2 : card1 = card2) (h3 : fs1 = fs2)
    (h4 : polys1 = polys2) (h5 : digests1 = digests2) (h6 : point1 = point2)
    (h7 : srs1 = srs2) :
    BatchOpenSinglePoint numCpus1 card1 fs1 polys1 digests1 point1 srs1
      = BatchOpenSinglePoint numCpus2 card2 fs2 polys2 digests2 point2 srs2 := by
  subst h1
  subst h2
  subst h3
  subst h4
  subst h5
  subst h6
  subst h7
  rfl

/-- Claim C7, witness: the determinism theorem applied to a concrete pair
of identical calls over `Fin 5`. -/
theorem claim_C7_witness :
    BatchOpenSinglePoint 0 2 fsWorking [[1, 2]] [1] 0 srsEx
      = BatchOpenSinglePoint 0 2 fsWorking [[1, 2]] [1] 0 srsEx :=
  claim_C7_batchopen_deterministic 0 0 2 2 fsWorking fsWorking [[1, 2]] [[1, 2]]
    [1] [1] 0 0 srsEx srsEx rfl rfl rfl rfl rfl rfl rfl

/-- Claim C9 (amended): `BatchVerifyMultiPoints` on an empty digest list
and an empty proof list passes the length-consistency check but then
executes `randomNumbers[0].SetOne()` on an empty slice and aborts
(panics); it returns neither success nor an error. -/
theorem claim_C9_empty_batch_panics (rand : Nat → F) (srs : SRS F) :
    BatchVerifyMultiPoints (E := Unit) rand [] [] srs = Outcome.panic := by
  rfl

/-- Claim C9, counterexample to the claim as stated: with empty digest and
proof lists the call does not return success (it panics). -/
theorem claim_C9_counterexample :
    BatchVerifyMultiPoints (E := Unit) (fun _ => (0 : Fin 5)) [] [] srsEx
      ≠ Outcome.ok () := by
  decide

/-- Claim C10: `Open` never modifies its input polynomial.  In the
buffer-tracking embedding, the caller's coefficient slice after the call is
the slice passed in (the synthetic division runs on the fresh copy `_p`),
and the tracked computation returns the same result as `Open`. -/
theorem claim_C10_open_preserves_input (numCpus card : Nat) (p : List F) (point : F)
    (srs : SRS F) :
    (OpenTracked (E := Unit) numCpus card p point srs).1 = p ∧
    (OpenTracked (E := Unit) numCpus card p point srs).2
      = Open (E := Unit) numCpus card p point srs := by
  unfold OpenTracked Open
  split_ifs with h1 h2
  · exact ⟨rfl, rfl⟩
  · exact ⟨rfl, rfl⟩
  · exact ⟨rfl, rfl⟩

end Kzg

namespace Iop

variable {F : Type} [Field F] [DecidableEq F]

/-- Claim C4: `checkSize`'s inner loop bound is `len(pols)` (the number of
slices) instead of the slice length, so `BuildRatioCopyConstraint`, whose
`checkSize(entries)` call passes a single slice, only ever inspects
`entries[0]`: with two entries of different lengths 2 and 4 the call
returns a result (here the all-ones polynomial) instead of
`ErrInconsistentSize`. -/
theorem claim_C4_inconsistent_size_not_detected :
    BuildRatioCopyConstraint opsEx
        [⟨[1, 2], Basis.lagrange, Layout.regular⟩,
         ⟨[1, 2, 3, 4], Basis.lagrange, Layout.regular⟩]
        [0, 1, 2, 3] 1 1 ⟨Basis.lagrange, Layout.regular⟩ (some dom2Ex)
      = Outcome.ok ⟨[1, 1], Basis.lagrange, Layout.regular⟩ ∧
    (Outcome.ok (⟨[1, 1], Basis.lagrange, Layout.regular⟩ : Polynomial (Fin 5))
        : Outcome RatioErr (Polynomial (Fin 5)))
      ≠ Outcome.err RatioErr.ErrInconsistentSize := by
  constructor
  · decide
  · decide

/-- Claim C5: `BuildRatioShuffledVectors` with numerator and denominator
lists that each contain exactly one (well-formed, power-of-two-length)
polynomial panics: `checkSize(numerator, denominator)` runs its inner loop
up to `len(pols) = 2` and the read `pols[0][1]` indexes past the end of the
one-element numerator slice. -/
theorem claim_C5_singleton_lists_panic :
    BuildRatioShuffledVectors opsEx
        [⟨[0, 1], Basis.lagrange, Layout.regular⟩]
        [⟨[1, 1], Basis.lagrange, Layout.regular⟩]
        0 ⟨Basis.lagrange, Layout.regular⟩ (some dom2Ex)
      = Outcome.panic := by
  decide

/-- Claim C2, counterexample: a fully valid singleton input (equal-length
lists, both polynomials of power-of-two length 2 matching the domain,
every denominator factor nonzero at `beta = 0`) panics inside `checkSize`
instead of returning the accumulating-ratio polynomial. -/
theorem claim_C2_counterexample :
    BuildRatioShuffledVectors opsEx
        [⟨[1, 2], Basis.lagrange, Layout.regular⟩]
        [⟨[3, 4], Basis.lagrange, Layout.regular⟩]
        0 ⟨Basis.lagrange, Layout.regular⟩ (some dom2Ex)
      = Outcome.panic := by
  decide

/-- Claim C8, counterexample: with a (formally valid) power-of-two length
of 1 and the matching cardinality-1 domain, the identity-support
construction of `BuildRatioCopyConstraint` starts its extension loop at
index `-1` and panics, so the identity permutation does not return the
all-ones polynomial there. -/
theorem claim_C8_counterexample :
    BuildRatioCopyConstraint opsEx
        [⟨[3], Basis.lagrange, Layout.regular⟩]
        [0] 0 0 ⟨Basis.lagrange, Layout.regular⟩ (some dom1Ex)
      = Outcome.panic ∧
    (Outcome.panic : Outcome RatioErr (Polynomial (Fin 5)))
      ≠ Outcome.ok ⟨[1], Basis.lagrange, Layout.regular⟩ := by
  constructor
  · decide
  · decide

end Iop

theorem get?_eq_some_getD {α : Type} (l : List α) (i : Nat) (d : α) (h : i < l.length) :
    l.get? i = some (l.getD i d) := by
  rw [List.get?_eq_get h, List.getD_eq_getElem l d h]
  rfl

theorem readAt_ok {ε α : Type} (l : List α) (i : Nat) (d : α) (h : i < l.length) :
    readAt (ε := ε) l i = .ok (l.getD i d) := by
  unfold readAt
  rw [get?_eq_some_getD l i d h]

namespace Iop

variable {F : Type} [Field F] [DecidableEq F]

/-! ### Evaluation lemmas for the ratio builders -/

theorem land_two_pow_pred (k : Nat) : (2 ^ k) &&& (2 ^ k - 1) = 0 := by
  apply Nat.eq_of_testBit_eq
  intro i
  rw [Nat.testBit_land, Nat.testBit_two_pow, Nat.testBit_two_pow_sub_one, Nat.zero_testBit]
  by_cases h : k = i
  · subst h
    simp
  · simp [h]

theorem buildDomain_ok (newD : Nat → Domain F) (k : Nat) (d : Domain F) (n : Nat)
    (hn : n = 2 ^ k) (hcard : d.Cardinality = n) :
    buildDomain newD n (some d) = Outcome.ok d := by
  subst hn
  simp only [buildDomain]
  rw [if_neg (not_ne_iff.mpr (land_two_pow_pred k)), if_neg (not_ne_iff.mpr hcard)]

theorem toLagrange_lagrange (ops : ExtOps F) (d : Domain F) (p : Polynomial F)
    (h : p.Basis = Basis.lagrange) : toLagrange ops d p = p := by
  unfold toLagrange
  rw [h]

theorem map_toLagrange_id (ops : ExtOps F) (d : Domain F) (ps : List (Polynomial F))
    (h : ∀ p ∈ ps, p.Basis = Basis.lagrange) :
    ps.map (toLagrange ops d) = ps := by
  have h2 : ps.map (toLagrange ops d) = ps.map id :=
    List.map_congr_left (fun p hp => toLagrange_lagrange ops d p (h p hp))
  rw [h2, List.map_id]

theorem putInExpectedForm_lagrange_regular (ops : ExtOps F) (d : Domain F) (c : List F) :
    putInExpectedFormFromLagrangeRegular ops d ⟨c, Basis.lagrange, Layout.regular⟩
      ⟨Basis.lagrange, Layout.regular⟩ = ⟨c, Basis.lagrange, Layout.regular⟩ := rfl

theorem checkCell_ok (pols : List (List (Polynomial F))) (n : Nat) (i j : Nat)
    (p : Polynomial F) (hp : (pols.get? i).bind (fun l => l.get? j) = some p)
    (hlen : p.coefficients.length = n) :
    checkCell pols n (i, j) = Outcome.ok () := by
  unfold checkCell
  rw [hp]
  simp [hlen]

theorem checkSize_single_ok (p : Polynomial F) (rest : List (Polynomial F)) :
    checkSize [p :: rest] = Outcome.ok () := by
  have hcell : checkCell [p :: rest] p.coefficients.length (0, 0) = Outcome.ok () :=
    checkCell_ok _ _ 0 0 p rfl rfl
  simp only [checkSize, List.get?, Option.bind, List.length_cons, List.length_nil,
    List.length_singleton]
  simp only [show List.range 1 = [0] from rfl, Outcome.forListM_cons, Outcome.forListM_nil,
    hcell, Outcome.bind_ok]

theorem checkSize_pair_ok (a b c d : Polynomial F) (ta tb : List (Polynomial F)) (n : Nat)
    (ha : a.coefficients.length = n) (hb : b.coefficients.length = n)
    (hc : c.coefficients.length = n) (hd : d.coefficients.length = n) :
    checkSize [a :: b :: ta, c :: d :: tb] = Outcome.ok () := by
  have h00 : checkCell [a :: b :: ta, c :: d :: tb] a.coefficients.length (0, 0)
      = Outcome.ok () := checkCell_ok _ _ 0 0 a rfl rfl
  have h01 : checkCell [a :: b :: ta, c :: d :: tb] a.coefficients.length (0, 1)
      = Outcome.ok () := checkCell_ok _ _ 0 1 b rfl (by rw [hb, ha])
  have h10 : checkCell [a :: b :: ta, c :: d :: tb] a.coefficients.length (1, 0)
      = Outcome.ok () := checkCell_ok _ _ 1 0 c rfl (by rw [hc, ha])
  have h11 : checkCell [a :: b :: ta, c :: d :: tb] a.coefficients.length (1, 1)
      = Outcome.ok () := checkCell_ok _ _ 1 1 d rfl (by rw [hd, ha])
  simp only [checkSize, List.get?, Option.bind, List.length_cons, List.length_nil]
  simp only [show List.range 2 = [0, 1] from rfl, Outcome.forListM_cons, Outcome.forListM_nil,
    h00, h01, h10, h11, Outcome.bind_ok]

@[simp] theorem layoutIdx_regular (n i : Nat) : layoutIdx n Layout.regular i = i := rfl

@[simp] theorem layoutIdx_bitReverse (n i : Nat) :
    layoutIdx n Layout.bitReverse i = bitRev (Nat.log2 n) i := rfl

theorem shuffleTerm_ok (beta : F) (n i : Nat) (acc : F) (p : Polynomial F)
    (hlen : p.coefficients.length = n) (hi : i < n)
    (hrev : bitRev (Nat.log2 n) i < n) :
    shuffleTerm beta n i (bitRev (Nat.log2 n) i) acc p
      = Outcome.ok (acc * (beta - lagEval n p i)) := by
  unfold shuffleTerm
  cases hL : p.Layout with
  | regular =>
      simp only [hL]
      rw [readAt_ok p.coefficients i 0 (by rw [hlen]; exact hi)]
      simp only [Outcome.bind_ok, lagEval, hL, layoutIdx_regular]
  | bitReverse =>
      simp only [hL]
      rw [readAt_ok p.coefficients (bitRev (Nat.log2 n) i) 0 (by rw [hlen]; exact hrev)]
      simp only [Outcome.bind_ok, lagEval, hL, layoutIdx_bitReverse]

theorem foldListM_shuffleTerm (beta : F) (n i : Nat) (ps : List (Polynomial F))
    (hps : ∀ p ∈ ps, p.coefficients.length = n) (hi : i < n)
    (hrev : bitRev (Nat.log2 n) i < n) :
    ∀ acc : F, Outcome.foldListM (shuffleTerm beta n i (bitRev (Nat.log2 n) i)) acc ps
      = Outcome.ok (acc * (ps.map (fun p => beta - lagEval n p i)).prod) := by
  induction ps with
  | nil => intro acc; simp
  | cons p ps ih =>
      intro acc
      rw [Outcome.foldListM_cons,
        shuffleTerm_ok beta n i acc p (hps p (List.mem_cons_self p ps)) hi hrev,
        Outcome.bind_ok, ih (fun q hq => hps q (List.mem_cons_of_mem p hq))]
      simp [mul_assoc]

theorem shuffleStep_ok (beta : F) (n i : Nat) (num den : List (Polynomial F))
    (hnum : ∀ p ∈ num, p.coefficients.length = n)
    (hden : ∀ p ∈ den, p.coefficients.length = n)
    (hi : i < n) (hrev : bitRev (Nat.log2 n) i < n) :
    shuffleStep beta n num den i
      = Outcome.ok ((num.map (fun p => beta - lagEval n p i)).prod,
                    (den.map (fun p => beta - lagEval n p i)).prod) := by
  simp only [shuffleStep]
  rw [foldListM_shuffleTerm beta n i num hnum hi hrev 1, Outcome.bind_ok,
    foldListM_shuffleTerm beta n i den hden hi hrev 1, Outcome.bind_ok, one_mul, one_mul]

theorem prefixScan_length (bs : List F) : ∀ x : F, (prefixScan x bs).length = bs.length + 1 := by
  induction bs with
  | nil => intro x; rfl
  | cons b bs ih => intro x; simp [prefixScan, ih]

theorem prefixScan2_length (bs : List F) : ∀ x : F, (prefixScan2 x bs).length = bs.length + 1 := by
  induction bs with
  | nil => intro x; rfl
  | cons b bs ih => intro x; simp [prefixScan2, ih]

theorem prefixScan_getD (bs : List F) : ∀ (x : F) (j : Nat), j ≤ bs.length →
    (prefixScan x bs).getD j 0 = x * (bs.take j).prod := by
  induction bs with
  | nil =>
      intro x j hj
      have hj0 : j = 0 := by simpa using hj
      subst hj0
      simp [prefixScan]
  | cons b bs ih =>
      intro x j hj
      cases j with
      | zero => simp [prefixScan]
      | succ j =>
          simp only [prefixScan, List.getD_cons_succ, List.take_succ_cons, List.prod_cons]
          rw [ih (x * b) j (by simpa using hj)]
          ring

theorem prefixScan2_getD (bs : List F) : ∀ (x : F) (j : Nat), j ≤ bs.length →
    (prefixScan2 x bs).getD j 0 = x * (bs.take j).prod := by
  induction bs with
  | nil =>
      intro x j hj
      have hj0 : j = 0 := by simpa using hj
      subst hj0
      simp [prefixScan2]
  | cons b bs ih =>
      intro x j hj
      cases j with
      | zero => simp [prefixScan2]
      | succ j =>
          simp only [prefixScan2, List.getD_cons_succ, List.take_succ_cons, List.prod_cons]
          rw [ih (b * x) j (by simpa using hj)]
          ring

theorem prefixScan_exists_cons (x : F) (bs : List F) :
    ∃ rest, prefixScan x bs = x :: rest := by
  cases bs with
  | nil => exact ⟨[], rfl⟩
  | cons b bs => exact ⟨prefixScan (x * b) bs, rfl⟩

theorem prefixScan2_exists_cons (x : F) (bs : List F) :
    ∃ rest, prefixScan2 x bs = x :: rest := by
  cases bs with
  | nil => exact ⟨[], rfl⟩
  | cons b bs => exact ⟨prefixScan2 (b * x) bs, rfl⟩

@[simp] theorem batchInvert_length (t : List F) : (batchInvert t).length = t.length := by
  simp [batchInvert]

theorem batchInvert_getD (t : List F) (j : Nat) (h : j < t.length) :
    (batchInvert t).getD j 0 = (t.getD j 0)⁻¹ := by
  unfold batchInvert
  have hm : j < (t.map fun x => x⁻¹).length := by simpa using h
  rw [List.getD_eq_getElem _ _ hm, List.getElem_map, List.getD_eq_getElem _ _ h]

theorem applyInvFrom1_length (cs ts : List F) (h : ts.length = cs.length) :
    (applyInvFrom1 cs ts).length = cs.length := by
  cases cs with
  | nil => rfl
  | cons c cs =>
      cases ts with
      | nil => simp at h
      | cons t ts =>
          simp only [applyInvFrom1, List.length_cons, List.length_zipWith]
          simp at h
          omega

theorem applyInvFrom1_getD_zero (c : F) (cs ts : List F) :
    (applyInvFrom1 (c :: cs) ts).getD 0 0 = c := by
  cases ts <;> rfl

theorem applyInvFrom1_getD_succ (cs ts : List F) (j : Nat) (hcs : j + 1 < cs.length)
    (hts : j + 1 < ts.length) :
    (applyInvFrom1 cs ts).getD (j + 1) 0 = cs.getD (j + 1) 0 * ts.getD (j + 1) 0 := by
  cases cs with
  | nil => simp at hcs
  | cons c cs =>
      cases ts with
      | nil => simp at hts
      | cons t ts =>
          simp only [applyInvFrom1, List.getD_cons_succ]
          have hc : j < cs.length := by simpa using hcs
          have ht : j < ts.length := by simpa using hts
          have hz : j < (List.zipWith (fun x y => x * y) cs ts).length := by
            simp only [List.length_zipWith]
            omega
          rw [List.getD_eq_getElem _ _ hz, List.getElem_zipWith,
            List.getD_eq_getElem _ _ hc, List.getD_eq_getElem _ _ ht]

theorem checkSize_pair_ok2 (num den : List (Polynomial F)) (n : Nat)
    (hnum2 : 2 ≤ num.length) (hden2 : 2 ≤ den.length)
    (hnum : ∀ p ∈ num, p.coefficients.length = n)
    (hden : ∀ p ∈ den, p.coefficients.length = n) :
    checkSize [num, den] = Outcome.ok () := by
  obtain ⟨a, ta, rfl⟩ := List.exists_cons_of_ne_nil
    (List.ne_nil_of_length_pos (by omega) : num ≠ [])
  obtain ⟨b, tb, rfl⟩ := List.exists_cons_of_ne_nil
    (List.ne_nil_of_length_pos (by simp at hnum2; omega) : ta ≠ [])
  obtain ⟨c, tc, rfl⟩ := List.exists_cons_of_ne_nil
    (List.ne_nil_of_length_pos (by omega) : den ≠ [])
  obtain ⟨d, td, rfl⟩ := List.exists_cons_of_ne_nil
    (List.ne_nil_of_length_pos (by simp at hden2; omega) : tc ≠ [])
  exact checkSize_pair_ok a b c d tb td n
    (hnum a (by simp)) (hnum b (by simp)) (hden c (by simp)) (hden d (by simp))

/-- Claim C2 (amended): for every valid input to `BuildRatioShuffledVectors`
with *at least two* polynomials per list (equal-length lists, every
polynomial in the Lagrange basis with the same power-of-two length `n`
equal to the domain cardinality, every denominator factor nonzero), the
returned polynomial `Z`, read in the Lagrange basis over the domain,
satisfies `Z(ω⁰) = 1` and, for every `j ≤ n - 2`,
`Z(ω^(j+1)) = Z(ω^j) · Π_k (β - numeratorₖ(ω^j)) / Π_k (β - denominatorₖ(ω^j))`.
(With one polynomial per list, or empty lists, `checkSize` reads past the
end of the slice and the call aborts, see the counterexample.) -/
theorem claim_C2_build_ratio_shuffled (ops : ExtOps F) (num den : List (Polynomial F))
    (beta : F) (dom : Domain F) (n k : Nat)
    (hm : 2 ≤ num.length) (hlen : num.length = den.length)
    (hnum : ∀ p ∈ num, p.Basis = Basis.lagrange ∧ p.coefficients.length = n)
    (hden : ∀ p ∈ den, p.Basis = Basis.lagrange ∧ p.coefficients.length = n)
    (hn : n = 2 ^ k) (hcard : dom.Cardinality = n)
    (hnz : ∀ i, i < n - 1 → ∀ q ∈ den, beta - lagEval n q i ≠ 0) :
    ∃ Z : Polynomial F,
      BuildRatioShuffledVectors ops num den beta ⟨Basis.lagrange, Layout.regular⟩ (some dom)
        = Outcome.ok Z ∧
      Z.Basis = Basis.lagrange ∧ Z.Layout = Layout.regular ∧
      Z.coefficients.length = n ∧
      Z.coefficients.getD 0 0 = 1 ∧
      ∀ j, j + 1 ≤ n - 1 →
        Z.coefficients.getD (j + 1) 0
          = Z.coefficients.getD j 0
              * (num.map (fun q => beta - lagEval n q j)).prod
              * ((den.map (fun q => beta - lagEval n q j)).prod)⁻¹ := by
  have hn1 : 1 ≤ n := by
    rw [hn]
    exact Nat.one_le_two_pow
  have hmden : 2 ≤ den.length := hlen ▸ hm
  have hnum0 : num.get? 0 = some (num.get ⟨0, by omega⟩) := List.get?_eq_get (by omega)
  have hn0 : (num.get ⟨0, by omega⟩).coefficients.length = n :=
    (hnum _ (List.get_mem num 0 (by omega))).2
  -- the per-step numerator and denominator products
  have hsteps : Outcome.mapListM (shuffleStep beta n num den) (List.range (n - 1))
      = Outcome.ok ((List.range (n - 1)).map
          (fun i => ((num.map (fun p => beta - lagEval n p i)).prod,
                     (den.map (fun p => beta - lagEval n p i)).prod))) := by
    refine mapListM_ok _ _ _ (fun i hi => ?_)
    have hilt : i < n - 1 := List.mem_range.mp hi
    refine shuffleStep_ok beta n i num den (fun p hp => (hnum p hp).2)
      (fun p hp => (hden p hp).2) (by omega) ?_
    rw [hn, Nat.log2_two_pow]
    exact hn ▸ bitRev_lt k i
  -- run the embedded function
  unfold BuildRatioShuffledVectors
  rw [if_neg (not_ne_iff.mpr hlen)]
  rw [checkSize_pair_ok2 num den n hm hmden (fun p hp => (hnum p hp).2)
    (fun p hp => (hden p hp).2), Outcome.bind_ok]
  simp only [hnum0, Outcome.bind_ok]
  rw [hn0]
  rw [buildDomain_ok ops.newDomain k dom n hn hcard, Outcome.bind_ok]
  rw [map_toLagrange_id ops dom num (fun p hp => (hnum p hp).1),
    map_toLagrange_id ops dom den (fun p hp => (hden p hp).1)]
  rw [hsteps, Outcome.bind_ok]
  rw [putInExpectedForm_lagrange_regular]
  have hfst : (((List.range (n - 1)).map
      (fun i => ((num.map (fun p => beta - lagEval n p i)).prod,
                 (den.map (fun p => beta - lagEval n p i)).prod))).map Prod.fst)
      = (List.range (n - 1)).map (fun i => (num.map (fun p => beta - lagEval n p i)).prod) := by
    rw [List.map_map]
    rfl
  have hsnd : (((List.range (n - 1)).map
      (fun i => ((num.map (fun p => beta - lagEval n p i)).prod,
                 (den.map (fun p => beta - lagEval n p i)).prod))).map Prod.snd)
      = (List.range (n - 1)).map (fun i => (den.map (fun p => beta - lagEval n p i)).prod) := by
    rw [List.map_map]
    rfl
  rw [hfst, hsnd]
  -- names for the two running-product inputs
  set bs := (List.range (n - 1)).map
    (fun i => (num.map (fun p => beta - lagEval n p i)).prod) with hbs
  set ds := (List.range (n - 1)).map
    (fun i => (den.map (fun p => beta - lagEval n p i)).prod) with hds
  have hbslen : bs.length = n - 1 := by rw [hbs, List.length_map, List.length_range]
  have hdslen : ds.length = n - 1 := by rw [hds, List.length_map, List.length_range]
  have hclen : (prefixScan (1 : F) bs).length = n := by
    rw [prefixScan_length, hbslen]
    omega
  have htlen : (batchInvert (prefixScan (1 : F) ds)).length = n := by
    rw [batchInvert_length, prefixScan_length, hdslen]
    omega
  refine ⟨_, rfl, rfl, rfl, ?_, ?_, ?_⟩
  · -- length of the result
    exact (applyInvFrom1_length _ _ (htlen.trans hclen.symm)).trans hclen
  · -- Z(ω⁰) = 1
    show (applyInvFrom1 (prefixScan (1 : F) bs)
        (batchInvert (prefixScan (1 : F) ds))).getD 0 0 = 1
    obtain ⟨rest, hrest⟩ := prefixScan_exists_cons (1 : F) bs
    rw [hrest, applyInvFrom1_getD_zero]
  · -- the accumulating-ratio recurrence
    have hZ : ∀ j, j ≤ n - 1 →
        (applyInvFrom1 (prefixScan (1 : F) bs) (batchInvert (prefixScan (1 : F) ds))).getD j 0
          = (bs.take j).prod * ((ds.take j).prod)⁻¹ := by
      intro j hj
      cases j with
      | zero =>
          obtain ⟨rest, hrest⟩ := prefixScan_exists_cons (1 : F) bs
          rw [hrest, applyInvFrom1_getD_zero]
          simp
      | succ j =>
          rw [applyInvFrom1_getD_succ _ _ j (by omega) (by omega)]
          rw [prefixScan_getD bs 1 (j + 1) (by omega), one_mul]
          rw [batchInvert_getD _ (j + 1) (by rw [prefixScan_length, hdslen]; omega)]
          rw [prefixScan_getD ds 1 (j + 1) (by omega), one_mul]
    intro j hj
    show (applyInvFrom1 (prefixScan (1 : F) bs)
          (batchInvert (prefixScan (1 : F) ds))).getD (j + 1) 0
        = (applyInvFrom1 (prefixScan (1 : F) bs)
            (batchInvert (prefixScan (1 : F) ds))).getD j 0
            * (num.map (fun q => beta - lagEval n q j)).prod
            * ((den.map (fun q => beta - lagEval n q j)).prod)⁻¹
    rw [hZ (j + 1) (by omega), hZ j (by omega)]
    have htbs : bs.take (j + 1) = bs.take j ++ [(num.map (fun p => beta - lagEval n p j)).prod] := by
      rw [hbs, ← List.map_take, ← List.map_take, List.take_range, List.take_range,
        min_eq_left (by omega : j + 1 ≤ n - 1), min_eq_left (by omega : j ≤ n - 1),
        List.range_succ, List.map_append]
      rfl
    have htds : ds.take (j + 1) = ds.take j ++ [(den.map (fun p => beta - lagEval n p j)).prod] := by
      rw [hds, ← List.map_take, ← List.map_take, List.take_range, List.take_range,
        min_eq_left (by omega : j + 1 ≤ n - 1), min_eq_left (by omega : j ≤ n - 1),
        List.range_succ, List.map_append]
      rfl
    rw [htbs, htds, List.prod_append, List.prod_append, List.prod_singleton,
      List.prod_singleton, mul_inv]
    ring

/-- Claim C2, witness: the amended theorem at a concrete input over
`Fin 5`: two numerator and two denominator polynomials of length 2 in the
Lagrange basis over the cardinality-2 domain, challenge `beta = 0`. -/
theorem claim_C2_witness :
    ∃ Z : Polynomial (Fin 5),
      BuildRatioShuffledVectors opsEx
          [⟨[1, 2], Basis.lagrange, Layout.regular⟩, ⟨[2, 3], Basis.lagrange, Layout.regular⟩]
          [⟨[3, 4], Basis.lagrange, Layout.regular⟩, ⟨[4, 1], Basis.lagrange, Layout.regular⟩]
          0 ⟨Basis.lagrange, Layout.regular⟩ (some dom2Ex)
        = Outcome.ok Z ∧
      Z.Basis = Basis.lagrange ∧ Z.Layout = Layout.regular ∧
      Z.coefficients.length = 2 ∧
      Z.coefficients.getD 0 0 = 1 ∧
      ∀ j, j + 1 ≤ 2 - 1 →
        Z.coefficients.getD (j + 1) 0
          = Z.coefficients.getD j 0
              * (List.map (fun q => (0 : Fin 5) - lagEval 2 q j)
                  [⟨[1, 2], Basis.lagrange, Layout.regular⟩,
                   ⟨[2, 3], Basis.lagrange, Layout.regular⟩]).prod
              * ((List.map (fun q => (0 : Fin 5) - lagEval 2 q j)
                  [⟨[3, 4], Basis.lagrange, Layout.regular⟩,
                   ⟨[4, 1], Basis.lagrange, Layout.regular⟩]).prod)⁻¹ :=
  claim_C2_build_ratio_shuffled opsEx
    [⟨[1, 2], Basis.lagrange, Layout.regular⟩, ⟨[2, 3], Basis.lagrange, Layout.regular⟩]
    [⟨[3, 4], Basis.lagrange, Layout.regular⟩, ⟨[4, 1], Basis.lagrange, Layout.regular⟩]
    0 dom2Ex 2 1 (by decide) (by decide) (by decide) (by decide) (by decide) (by decide)
    (by decide)

theorem int_ofNat_toNat (x : Nat) : (Int.ofNat x).toNat = x := rfl

theorem getSupportIdentityPermutation_ok (m : Nat) (d : Domain F)
    (h1 : d.Cardinality ≠ 1) (hm : m ≠ 0) :
    getSupportIdentityPermutation m d = Outcome.ok (supportTable m d) := by
  unfold getSupportIdentityPermutation
  rw [if_neg h1, if_neg hm]

theorem copyTerm_identity_ok (tbl : List F) (m n : Nat) (beta gamma : F) (i : Nat)
    (jp : Nat × Polynomial F) (htbl : tbl.length = m * n)
    (hj : jp.1 < m) (hplen : jp.2.coefficients.length = n) (hi : i < n)
    (hrev : bitRev (Nat.log2 n) i < n) :
    ∀ acc : F × F,
    copyTerm tbl ((List.range (m * n)).map Int.ofNat) beta gamma n i
        (bitRev (Nat.log2 n) i) acc jp
      = Outcome.ok (acc.1 * copyFactor tbl beta gamma n i jp,
                    acc.2 * copyFactor tbl beta gamma n i jp) := by
  intro acc
  have hidx : i + jp.1 * n < m * n := by
    calc i + jp.1 * n < n + jp.1 * n := by omega
    _ = (jp.1 + 1) * n := by ring
    _ ≤ m * n := Nat.mul_le_mul_right n hj
  have hperm : ((List.range (m * n)).map Int.ofNat).get? (i + jp.1 * n)
      = some (Int.ofNat (i + jp.1 * n)) := by
    rw [List.get?_map, List.get?_range hidx]
    rfl
  have hneg : ¬ (Int.ofNat (i + jp.1 * n) < 0) := not_lt.mpr (Int.natCast_nonneg _)
  cases hL : jp.2.Layout with
  | regular =>
      simp only [copyTerm, hL]
      rw [readAt_ok jp.2.coefficients i 0 (by rw [hplen]; exact hi), Outcome.bind_ok,
        readAt_ok tbl (i + jp.1 * n) 0 (by rw [htbl]; exact hidx), Outcome.bind_ok]
      simp only [hperm]
      rw [if_neg hneg, int_ofNat_toNat,
        readAt_ok tbl (i + jp.1 * n) 0 (by rw [htbl]; exact hidx), Outcome.bind_ok]
      simp only [copyFactor, hL, layoutIdx_regular]
  | bitReverse =>
      simp only [copyTerm, hL]
      rw [readAt_ok jp.2.coefficients (bitRev (Nat.log2 n) i) 0 (by rw [hplen]; exact hrev),
        Outcome.bind_ok,
        readAt_ok tbl (i + jp.1 * n) 0 (by rw [htbl]; exact hidx), Outcome.bind_ok]
      simp only [hperm]
      rw [if_neg hneg, int_ofNat_toNat,
        readAt_ok tbl (i + jp.1 * n) 0 (by rw [htbl]; exact hidx), Outcome.bind_ok]
      simp only [copyFactor, hL, layoutIdx_bitReverse]

theorem foldListM_copyTerm (tbl : List F) (perm : List Int) (beta gamma : F)
    (n i iRev : Nat) (L : List (Nat × Polynomial F))
    (h : ∀ jp ∈ L, ∀ acc : F × F,
      copyTerm tbl perm beta gamma n i iRev acc jp
        = Outcome.ok (acc.1 * copyFactor tbl beta gamma n i jp,
                      acc.2 * copyFactor tbl beta gamma n i jp)) :
    ∀ acc : F × F,
    Outcome.foldListM (copyTerm tbl perm beta gamma n i iRev) acc L
      = Outcome.ok (acc.1 * (L.map (copyFactor tbl beta gamma n i)).prod,
                    acc.2 * (L.map (copyFactor tbl beta gamma n i)).prod) := by
  induction L with
  | nil => intro acc; simp
  | cons jp L ih =>
      intro acc
      rw [Outcome.foldListM_cons, h jp (List.mem_cons_self jp L) acc, Outcome.bind_ok,
        ih (fun q hq acc2 => h q (List.mem_cons_of_mem jp hq) acc2)]
      simp [mul_assoc]

theorem copyStep_identity_ok (tbl : List F) (m n : Nat) (beta gamma : F)
    (entries : List (Polynomial F)) (i : Nat)
    (htbl : tbl.length = m * n) (hm : entries.length = m)
    (hent : ∀ p ∈ entries, p.coefficients.length = n)
    (hi : i < n) (hrev : bitRev (Nat.log2 n) i < n) :
    copyStep tbl ((List.range (m * n)).map Int.ofNat) beta gamma n entries i
      = Outcome.ok ((entries.enum.map (copyFactor tbl beta gamma n i)).prod,
                    (entries.enum.map (copyFactor tbl beta gamma n i)).prod) := by
  simp only [copyStep]
  rw [foldListM_copyTerm tbl _ beta gamma n i _ entries.enum (fun jp hjp acc => ?_) (1, 1)]
  · simp
  · obtain ⟨j, p⟩ := jp
    have hget : entries[j]? = some p := List.mk_mem_enum_iff_getElem?.mp hjp
    have hjlt : j < entries.length := by
      by_contra hcon
      rw [List.getElem?_eq_none (le_of_not_lt hcon)] at hget
      cases hget
    have hpmem : p ∈ entries := by
      obtain ⟨hh, heq⟩ := List.getElem?_eq_some.mp hget
      rw [← heq]
      exact List.getElem_mem hh
    exact copyTerm_identity_ok tbl m n beta gamma i (j, p) htbl (hm ▸ hjlt)
      (hent p hpmem) hi hrev acc

/-- Claim C8 (amended): for every valid input to `BuildRatioCopyConstraint`
with a nonempty entries list, a power-of-two size `n ≥ 2` matching the
domain, and every factor `entryₖ(ω^i) + β·id + γ` nonzero, the identity
permutation yields the all-ones polynomial: every per-step ratio is exactly
1 and `Z(ω^j) = 1` for every `j`.  (With `n = 1` the identity-support
construction reads index `-1` and aborts, see the counterexample.) -/
theorem claim_C8_copy_constraint_identity (ops : ExtOps F) (entries : List (Polynomial F))
    (beta gamma : F) (dom : Domain F) (n k : Nat)
    (hne : entries ≠ [])
    (hent : ∀ p ∈ entries, p.Basis = Basis.lagrange ∧ p.coefficients.length = n)
    (hn : n = 2 ^ k) (hk : 1 ≤ k) (hcard : dom.Cardinality = n)
    (hnz : ∀ i, i < n - 1 → ∀ jp ∈ entries.enum,
      copyFactor (supportTable entries.length dom) beta gamma n i jp ≠ 0) :
    BuildRatioCopyConstraint ops entries
        ((List.range (entries.length * n)).map Int.ofNat)
        beta gamma ⟨Basis.lagrange, Layout.regular⟩ (some dom)
      = Outcome.ok ⟨List.replicate n 1, Basis.lagrange, Layout.regular⟩ := by
  have hn2 : 2 ≤ n := by
    rw [hn]
    calc (2 : Nat) = 2 ^ 1 := (pow_one 2).symm
    _ ≤ 2 ^ k := Nat.pow_le_pow_right (by norm_num) hk
  have hn1 : 1 ≤ n := by omega
  obtain ⟨p0, rest, rfl⟩ := List.exists_cons_of_ne_nil hne
  have hms : (p0 :: rest).length ≠ 0 := by simp
  have hcard1 : dom.Cardinality ≠ 1 := by rw [hcard]; omega
  have htbl : (supportTable (p0 :: rest).length dom).length = (p0 :: rest).length * n := by
    rw [supportTable_length (p0 :: rest).length dom (by simp), hcard]
  have hsteps : Outcome.mapListM
      (copyStep (supportTable (p0 :: rest).length dom)
        ((List.range ((p0 :: rest).length * n)).map Int.ofNat) beta gamma n (p0 :: rest))
      (List.range (n - 1))
    = Outcome.ok ((List.range (n - 1)).map (fun i =>
        (((p0 :: rest).enum.map
            (copyFactor (supportTable (p0 :: rest).length dom) beta gamma n i)).prod,
         ((p0 :: rest).enum.map
            (copyFactor (supportTable (p0 :: rest).length dom) beta gamma n i)).prod))) := by
    refine mapListM_ok _ _ _ (fun i hi => ?_)
    have hilt : i < n - 1 := List.mem_range.mp hi
    refine copyStep_identity_ok _ (p0 :: rest).length n beta gamma _ i htbl rfl
      (fun p hp => (hent p hp).2) (by omega) ?_
    rw [hn, Nat.log2_two_pow]
    exact hn ▸ bitRev_lt k i
  unfold BuildRatioCopyConstraint
  rw [checkSize_single_ok p0 rest, Outcome.bind_ok]
  simp only [List.get?_cons_zero, Outcome.bind_ok]
  rw [(hent p0 (List.mem_cons_self p0 rest)).2]
  rw [buildDomain_ok ops.newDomain k dom n hn hcard, Outcome.bind_ok]
  rw [map_toLagrange_id ops dom _ (fun p hp => (hent p hp).1)]
  rw [getSupportIdentityPermutation_ok (p0 :: rest).length dom hcard1 hms, Outcome.bind_ok]
  rw [hsteps, Outcome.bind_ok]
  rw [putInExpectedForm_lagrange_regular]
  have hfst : (((List.range (n - 1)).map (fun i =>
      (((p0 :: rest).enum.map
          (copyFactor (supportTable (p0 :: rest).length dom) beta gamma n i)).prod,
       ((p0 :: rest).enum.map
          (copyFactor (supportTable (p0 :: rest).length dom) beta gamma n i)).prod))).map
        Prod.fst)
      = (List.range (n - 1)).map (fun i =>
          ((p0 :: rest).enum.map
            (copyFactor (supportTable (p0 :: rest).length dom) beta gamma n i)).prod) := by
    rw [List.map_map]
    rfl
  have hsnd : (((List.range (n - 1)).map (fun i =>
      (((p0 :: rest).enum.map
          (copyFactor (supportTable (p0 :: rest).length dom) beta gamma n i)).prod,
       ((p0 :: rest).enum.map
          (copyFactor (supportTable (p0 :: rest).length dom) beta gamma n i)).prod))).map
        Prod.snd)
      = (List.range (n - 1)).map (fun i =>
          ((p0 :: rest).enum.map
            (copyFactor (supportTable (p0 :: rest).length dom) beta gamma n i)).prod) := by
    rw [List.map_map]
    rfl
  rw [hfst, hsnd]
  set es := (List.range (n - 1)).map (fun i =>
    ((p0 :: rest).enum.map
      (copyFactor (supportTable (p0 :: rest).length dom) beta gamma n i)).prod) with hes
  have hlen_es : es.length = n - 1 := by rw [hes, List.length_map, List.length_range]
  have hclen : (prefixScan2 (1 : F) es).length = n := by
    rw [prefixScan2_length, hlen_es]
    omega
  have hblen : (batchInvert (prefixScan2 (1 : F) es)).length = n := by
    rw [batchInvert_length]
    exact hclen
  have happlen : (applyInvFrom1 (prefixScan2 (1 : F) es)
      (batchInvert (prefixScan2 (1 : F) es))).length = n :=
    (applyInvFrom1_length _ _ (hblen.trans hclen.symm)).trans hclen
  have hP : ∀ j, j ≤ n - 1 → (es.take j).prod ≠ 0 := by
    intro j hj
    refine List.prod_ne_zero (fun h0 => ?_)
    have h0es : (0 : F) ∈ es := List.mem_of_mem_take h0
    rw [hes] at h0es
    obtain ⟨i, hi, hieq⟩ := List.mem_map.mp h0es
    have hstepnz : ((p0 :: rest).enum.map
        (copyFactor (supportTable (p0 :: rest).length dom) beta gamma n i)).prod ≠ 0 := by
      refine List.prod_ne_zero (fun hz => ?_)
      obtain ⟨jp, hjp, hjpeq⟩ := List.mem_map.mp hz
      exact hnz i (List.mem_range.mp hi) jp hjp hjpeq
    exact hstepnz hieq
  have hval : ∀ j, j ≤ n - 1 →
      (applyInvFrom1 (prefixScan2 (1 : F) es)
        (batchInvert (prefixScan2 (1 : F) es))).getD j 0 = 1 := by
    intro j hj
    cases j with
    | zero =>
        obtain ⟨restl, hr⟩ := prefixScan2_exists_cons (1 : F) es
        rw [hr, applyInvFrom1_getD_zero]
    | succ j =>
        rw [applyInvFrom1_getD_succ _ _ j (by rw [hclen]; omega) (by rw [hblen]; omega)]
        rw [prefixScan2_getD es 1 (j + 1) (by rw [hlen_es]; omega), one_mul]
        rw [batchInvert_getD _ (j + 1) (by rw [hclen]; omega)]
        rw [prefixScan2_getD es 1 (j + 1) (by rw [hlen_es]; omega), one_mul]
        exact mul_inv_cancel₀ (hP (j + 1) hj)
  have hfin : applyInvFrom1 (prefixScan2 (1 : F) es)
      (batchInvert (prefixScan2 (1 : F) es)) = List.replicate n (1 : F) := by
    apply List.ext_getElem
    · rw [happlen, List.length_replicate]
    · intro i h1 h2
      have hi_n : i < n := by rw [happlen] at h1; exact h1
      have hv := hval i (by omega)
      rw [List.getD_eq_getElem _ _ h1] at hv
      rw [hv, List.getElem_replicate]
  rw [hfin]

/-- Claim C8, witness: the amended theorem at a concrete input over
`Fin 5`: one entry polynomial of length 2 in the Lagrange basis over the
cardinality-2 domain, the identity permutation `[0, 1]`, challenges
`beta = gamma = 1`. -/
theorem claim_C8_witness :
    BuildRatioCopyConstraint opsEx [⟨[1, 2], Basis.lagrange, Layout.regular⟩]
        ((List.range (1 * 2)).map Int.ofNat)
        1 1 ⟨Basis.lagrange, Layout.regular⟩ (some dom2Ex)
      = Outcome.ok ⟨List.replicate 2 1, Basis.lagrange, Layout.regular⟩ :=
  claim_C8_copy_constraint_identity opsEx [⟨[1, 2], Basis.lagrange, Layout.regular⟩]
    1 1 dom2Ex 2 1 (by decide) (by decide) (by decide) (by decide) (by decide) (by decide)

end Iop
